import Mathlib

/-
Verification of the pool-based order matching engine (`OrderBookPool`).

The engine is a single-symbol price-time-priority limit order book:
  * two fixed arrays of price levels (bids and asks) indexed by
    `tick - MIN_TICK`, each level an intrusive FIFO of order nodes with a
    cached aggregate quantity `totalQuantity`;
  * a hash index from order id to `{side, price, node}` for O(1) cancel;
  * lazily walked best-price cursors `bestBidIdx` / `bestAskIdx`.

The shallow embedding below mirrors the C++ source:
  * a price level's intrusive doubly linked node list becomes a `List Order`
    (head = front of the FIFO); `push_back` is append, `pop_front` is tail,
    `erase(node)` removes the (unique) entry carrying the node's id;
  * the `std::unordered_map<OrderId, OrderRef>` index becomes a function
    `Int → Option OrderRef`; the node handle stored in an `OrderRef` is
    resolved by looking the order id up inside the referenced level;
  * the trade sink's sequence of `onTrade` callbacks becomes a `List Trade`
    returned alongside the new book;
  * the two `while` loops of `matchIncoming` become fuel-indexed recursions;
    the fuel supplied by `matchIncoming` is always sufficient because the
    matched cursor moves strictly toward the edge of the band on every
    continuing iteration.
-/

namespace OrderBookPool

def MIN_TICK : Int := 900
def MAX_TICK : Int := 1100
def NUM_LEVELS : Int := MAX_TICK - MIN_TICK + 1

inductive Side where
  | buy
  | sell
deriving DecidableEq

structure Order where
  id : Int
  side : Side
  price : Int
  qty : Int
deriving DecidableEq

/-- One `onTrade(qty, price, taker, maker)` callback made to the sink. -/
structure Trade where
  qty : Int
  price : Int
  taker : Int
  maker : Int
deriving DecidableEq

/-- A price level: the FIFO of resting orders (head first) plus the cached
aggregate quantity. -/
structure PriceLevel where
  fifo : List Order
  totalQuantity : Int
deriving DecidableEq

def emptyLevel : PriceLevel := ⟨[], 0⟩

/-- The index record stored per resting id (the node handle is resolved by id
within the referenced level). -/
structure OrderRef where
  side : Side
  price : Int
deriving DecidableEq

/-- The whole engine state. -/
structure Book where
  bidLevels : Int → PriceLevel
  askLevels : Int → PriceLevel
  index : Int → Option OrderRef
  bestBidIdx : Int
  bestAskIdx : Int

def emptyBook : Book :=
  ⟨fun _ => emptyLevel, fun _ => emptyLevel, fun _ => none, -1, NUM_LEVELS⟩

def toIndex (p : Int) : Int := p - MIN_TICK
def fromIndex (i : Int) : Int := i + MIN_TICK

/-- Point update of a ladder. -/
def updLv (f : Int → PriceLevel) (i : Int) (l : PriceLevel) : Int → PriceLevel :=
  fun j => if j = i then l else f j

def setIndex (ix : Int → Option OrderRef) (id : Int) (r : OrderRef) :
    Int → Option OrderRef :=
  fun k => if k = id then some r else ix k

def eraseIndex (ix : Int → Option OrderRef) (id : Int) : Int → Option OrderRef :=
  fun k => if k = id then none else ix k

def eraseIds (ix : Int → Option OrderRef) (ids : List Int) : Int → Option OrderRef :=
  ids.foldl eraseIndex ix

def sumQty (l : List Order) : Int := l.foldr (fun o a => o.qty + a) 0

/-- Result of matching an incoming quantity against one level's FIFO. -/
structure FillResult where
  rem : Int
  fifo : List Order
  trades : List Trade
  removed : List Int
deriving DecidableEq

/-- The inner `while (in.qty > 0 && level.head)` loop of `matchIncoming`:
fill `min(in.qty, maker.qty)` against the head maker, emit a trade, remove the
maker when its quantity reaches zero (recording its id for index erasure),
otherwise stop. -/
def matchFifo (takerId price : Int) : Int → List Order → FillResult
  | q, [] => ⟨q, [], [], []⟩
  | q, m :: rest =>
    if 0 < q then
      let fill := min q m.qty
      let t : Trade := ⟨fill, price, takerId, m.id⟩
      if m.qty - fill = 0 then
        let r := matchFifo takerId price (q - fill) rest
        ⟨r.rem, r.fifo, t :: r.trades, m.id :: r.removed⟩
      else
        ⟨q - fill, { m with qty := m.qty - fill } :: rest, [t], []⟩
    else ⟨q, m :: rest, [], []⟩

/-- `updateBestAsk`'s walk `while (i < NUM_LEVELS && askLevels[i].empty()) ++i`. -/
def bestAskScan (lv : Int → PriceLevel) : Nat → Int → Int
  | 0, i => i
  | f + 1, i =>
    if i < NUM_LEVELS ∧ (lv i).fifo = [] then bestAskScan lv f (i + 1) else i

def updateBestAsk (lv : Int → PriceLevel) (i : Int) : Int :=
  bestAskScan lv (NUM_LEVELS - i).toNat i

/-- `updateBestBid`'s walk `while (i >= 0 && bidLevels[i].empty()) --i`. -/
def bestBidScan (lv : Int → PriceLevel) : Nat → Int → Int
  | 0, i => i
  | f + 1, i =>
    if 0 ≤ i ∧ (lv i).fifo = [] then bestBidScan lv f (i - 1) else i

def updateBestBid (lv : Int → PriceLevel) (i : Int) : Int :=
  bestBidScan lv (i + 1).toNat i

/-- `OrderBookPool::addToBook`: validate, append the order at the tail of its
level, index it, and tighten the own-side best cursor. -/
def addToBook (s : Book) (o : Order) : Bool × Book :=
  if o.qty ≤ 0 then (false, s)
  else if o.price < MIN_TICK ∨ MAX_TICK < o.price then (false, s)
  else if (s.index o.id).isSome then (false, s)
  else
    let idx := toIndex o.price
    match o.side with
    | Side.buy =>
      let level := s.bidLevels idx
      let level' : PriceLevel := ⟨level.fifo ++ [o], level.totalQuantity + o.qty⟩
      (true,
        { s with
          bidLevels := updLv s.bidLevels idx level'
          index := setIndex s.index o.id ⟨o.side, o.price⟩
          bestBidIdx := if s.bestBidIdx < idx then idx else s.bestBidIdx })
    | Side.sell =>
      let level := s.askLevels idx
      let level' : PriceLevel := ⟨level.fifo ++ [o], level.totalQuantity + o.qty⟩
      (true,
        { s with
          askLevels := updLv s.askLevels idx level'
          index := setIndex s.index o.id ⟨o.side, o.price⟩
          bestAskIdx := if idx < s.bestAskIdx then idx else s.bestAskIdx })

/-- Result of the matching phase: the book, the incoming order's remaining
quantity, and the trades emitted (in emission order). -/
structure MRes where
  book : Book
  rem : Int
  trades : List Trade

/-- The buy-side outer loop of `matchIncoming`: consume ask levels from
`bestAskIdx` upward while the incoming still has quantity and the level is
marketable; after a level empties, re-walk the cursor and continue. -/
def matchBuyLoop : Nat → Book → Order → MRes
  | 0, s, o => ⟨s, o.qty, []⟩
  | f + 1, s, o =>
    if 0 < o.qty ∧ s.bestAskIdx < NUM_LEVELS then
      if toIndex o.price < s.bestAskIdx then ⟨s, o.qty, []⟩
      else
        let a := s.bestAskIdx
        let level := s.askLevels a
        let r := matchFifo o.id (fromIndex a) o.qty level.fifo
        let level' : PriceLevel := ⟨r.fifo, level.totalQuantity - (o.qty - r.rem)⟩
        let s1 : Book :=
          { s with
            askLevels := updLv s.askLevels a level'
            index := eraseIds s.index r.removed }
        if r.fifo = [] then
          let s2 : Book := { s1 with bestAskIdx := updateBestAsk s1.askLevels a }
          let rec1 := matchBuyLoop f s2 { o with qty := r.rem }
          ⟨rec1.book, rec1.rem, r.trades ++ rec1.trades⟩
        else ⟨s1, r.rem, r.trades⟩
    else ⟨s, o.qty, []⟩

/-- The sell-side outer loop of `matchIncoming`, walking bid levels downward. -/
def matchSellLoop : Nat → Book → Order → MRes
  | 0, s, o => ⟨s, o.qty, []⟩
  | f + 1, s, o =>
    if 0 < o.qty ∧ 0 ≤ s.bestBidIdx then
      if s.bestBidIdx < toIndex o.price then ⟨s, o.qty, []⟩
      else
        let b := s.bestBidIdx
        let level := s.bidLevels b
        let r := matchFifo o.id (fromIndex b) o.qty level.fifo
        let level' : PriceLevel := ⟨r.fifo, level.totalQuantity - (o.qty - r.rem)⟩
        let s1 : Book :=
          { s with
            bidLevels := updLv s.bidLevels b level'
            index := eraseIds s.index r.removed }
        if r.fifo = [] then
          let s2 : Book := { s1 with bestBidIdx := updateBestBid s1.bidLevels b }
          let rec1 := matchSellLoop f s2 { o with qty := r.rem }
          ⟨rec1.book, rec1.rem, r.trades ++ rec1.trades⟩
        else ⟨s1, r.rem, r.trades⟩
    else ⟨s, o.qty, []⟩

/-- `OrderBookPool::matchIncoming`, with the remaining quantity exposed:
gate on quantity and band, cross against the opposite ladder, then rest any
remainder via `addToBook` (whose result is discarded, as in the source). -/
def matchIncomingFull (s : Book) (o : Order) : MRes :=
  if o.qty ≤ 0 then ⟨s, o.qty, []⟩
  else if o.price < MIN_TICK ∨ MAX_TICK < o.price then ⟨s, o.qty, []⟩
  else
    match o.side with
    | Side.buy =>
      let r := matchBuyLoop ((NUM_LEVELS - s.bestAskIdx).toNat + 1) s o
      if 0 < r.rem then ⟨(addToBook r.book { o with qty := r.rem }).2, r.rem, r.trades⟩
      else r
    | Side.sell =>
      let r := matchSellLoop ((s.bestBidIdx + 1).toNat + 1) s o
      if 0 < r.rem then ⟨(addToBook r.book { o with qty := r.rem }).2, r.rem, r.trades⟩
      else r

/-- `OrderBookPool::matchIncoming` as observed by callers: the new book and the
emitted trade stream. -/
def matchIncoming (s : Book) (o : Order) : Book × List Trade :=
  let r := matchIncomingFull s o
  (r.book, r.trades)

/-- `OrderBookPool::cancel`: locate the order through the index, detach it from
its level, subtract its quantity from the level total, drop the index entry,
and re-walk the best cursor if the emptied level was the best of its side. -/
def cancel (s : Book) (id : Int) : Bool × Book :=
  match s.index id with
  | none => (false, s)
  | some ref =>
    let idx := toIndex ref.price
    match ref.side with
    | Side.buy =>
      let level := s.bidLevels idx
      let q := match level.fifo.find? (fun o => o.id = id) with
               | some o => o.qty
               | none => 0
      let fifo' := level.fifo.eraseP (fun o => o.id = id)
      let level' : PriceLevel := ⟨fifo', level.totalQuantity - q⟩
      let lv' := updLv s.bidLevels idx level'
      let best' :=
        if fifo' = [] ∧ idx = s.bestBidIdx then updateBestBid lv' s.bestBidIdx
        else s.bestBidIdx
      (true,
        { s with
          bidLevels := lv'
          index := eraseIndex s.index id
          bestBidIdx := best' })
    | Side.sell =>
      let level := s.askLevels idx
      let q := match level.fifo.find? (fun o => o.id = id) with
               | some o => o.qty
               | none => 0
      let fifo' := level.fifo.eraseP (fun o => o.id = id)
      let level' : PriceLevel := ⟨fifo', level.totalQuantity - q⟩
      let lv' := updLv s.askLevels idx level'
      let best' :=
        if fifo' = [] ∧ idx = s.bestAskIdx then updateBestAsk lv' s.bestAskIdx
        else s.bestAskIdx
      (true,
        { s with
          askLevels := lv'
          index := eraseIndex s.index id
          bestAskIdx := best' })

/-- `OrderBookPool::replace`: look up the side, cancel, and feed the new order
through `matchIncoming` (it may cross immediately). -/
def replace (s : Book) (id newPrice newQty : Int) : Bool × Book × List Trade :=
  match s.index id with
  | none => (false, s, [])
  | some ref =>
    let c := cancel s id
    if c.1 then
      let m := matchIncoming c.2 ⟨id, ref.side, newPrice, newQty⟩
      (true, m.1, m.2)
    else (false, c.2, [])

/-- The level of a given side at a given ladder index. -/
def levelsOf (s : Book) : Side → Int → PriceLevel
  | Side.buy => s.bidLevels
  | Side.sell => s.askLevels

/-- Apply a sequence of incoming orders (submits) in order. -/
def runOps (s : Book) (ops : List Order) : Book :=
  ops.foldl (fun t o => (matchIncoming t o).1) s

/-- States reachable from the empty book through the public operations. -/
inductive Reachable : Book → Prop where
  | init : Reachable emptyBook
  | submit (s : Book) (o : Order) : Reachable s → Reachable (matchIncoming s o).1
  | cancel (s : Book) (id : Int) : Reachable s → Reachable (cancel s id).2
  | replace (s : Book) (id p q : Int) : Reachable s →
      Reachable (replace s id p q).2.1

/-- Modelled from the spec: the `AddResult` return enumeration of `submit`
(the `engine_pool.hpp` translation unit defining it is referenced by the tests
and benchmark but is not part of the source snapshot). -/
inductive AddResult where
  | FullyMatched
  | FullyRested
  | PartiallyRested
  | Rejected
deriving DecidableEq

/-- Modelled from the spec: `submit(order) → AddResult`. The missing
`engine_pool.hpp` returns an `AddResult` from `matchIncoming`; per the spec,
violations of `qty > 0`, `price ∈ [MIN_TICK, MAX_TICK]`, `id` not currently
resting return `Rejected` with no side effects, and otherwise the result
distinguishes `FullyMatched` (no remainder), `PartiallyRested` (some fills plus
remainder inserted) and `FullyRested` (no fills, remainder inserted). The
matching itself is the source-faithful `matchIncomingFull`. -/
def submit (s : Book) (o : Order) : AddResult × Book × List Trade :=
  if o.qty ≤ 0 ∨ o.price < MIN_TICK ∨ MAX_TICK < o.price ∨ (s.index o.id).isSome then
    (AddResult.Rejected, s, [])
  else
    let r := matchIncomingFull s o
    if r.rem = 0 then (AddResult.FullyMatched, r.book, r.trades)
    else if r.trades = [] then (AddResult.FullyRested, r.book, r.trades)
    else (AddResult.PartiallyRested, r.book, r.trades)

/-! ### Elementary facts about `sumQty` and the index maps -/

theorem sumQty_nil : sumQty [] = 0 := rfl

theorem sumQty_cons (o : Order) (l : List Order) :
    sumQty (o :: l) = o.qty + sumQty l := rfl

theorem sumQty_append (l₁ l₂ : List Order) :
    sumQty (l₁ ++ l₂) = sumQty l₁ + sumQty l₂ := by
  induction l₁ with
  | nil => simp [sumQty_nil, sumQty]
  | cons o l ih => simp [sumQty_cons, ih]; ring

theorem sumQty_nonneg (l : List Order) (h : ∀ o ∈ l, 0 < o.qty) :
    0 ≤ sumQty l := by
  induction l with
  | nil => simp [sumQty_nil]
  | cons o l ih =>
    rw [sumQty_cons]
    have h1 := h o (by simp)
    have h2 := ih (fun o ho => h o (by simp [ho]))
    omega

theorem updLv_same (f : Int → PriceLevel) (i : Int) (l : PriceLevel) :
    updLv f i l i = l := by simp [updLv]

theorem updLv_other (f : Int → PriceLevel) (i j : Int) (l : PriceLevel)
    (h : j ≠ i) : updLv f i l j = f j := by simp [updLv, h]

theorem eraseIndex_same (ix : Int → Option OrderRef) (id : Int) :
    eraseIndex ix id id = none := by simp [eraseIndex]

theorem eraseIndex_other (ix : Int → Option OrderRef) (id k : Int) (h : k ≠ id) :
    eraseIndex ix id k = ix k := by simp [eraseIndex, h]

theorem setIndex_same (ix : Int → Option OrderRef) (id : Int) (r : OrderRef) :
    setIndex ix id r id = some r := by simp [setIndex]

theorem setIndex_other (ix : Int → Option OrderRef) (id k : Int) (r : OrderRef)
    (h : k ≠ id) : setIndex ix id r k = ix k := by simp [setIndex, h]

/-- Erasing a batch of ids can only erase entries, never add or change them. -/
theorem eraseIds_cases (ids : List Int) (ix : Int → Option OrderRef) (k : Int) :
    eraseIds ix ids k = ix k ∨ eraseIds ix ids k = none := by
  induction ids generalizing ix with
  | nil => exact Or.inl rfl
  | cons i ids ih =>
    have hstep : eraseIds ix (i :: ids) = eraseIds (eraseIndex ix i) ids := rfl
    rw [hstep]
    rcases ih (eraseIndex ix i) with h | h
    · rw [h]
      rcases eq_or_ne k i with rfl | hk
      · exact Or.inr (eraseIndex_same _ _)
      · exact Or.inl (eraseIndex_other _ _ _ hk)
    · exact Or.inr h

/-! ### Facts about the inner fill loop `matchFifo` -/

theorem matchFifo_sum (tk pr : Int) (q : Int) (l : List Order) :
    sumQty (matchFifo tk pr q l).fifo = sumQty l - (q - (matchFifo tk pr q l).rem) := by
  induction l generalizing q with
  | nil => simp [matchFifo, sumQty_nil]
  | cons m rest ih =>
    by_cases hq : 0 < q
    · by_cases hz : m.qty - min q m.qty = 0
      · rw [matchFifo, if_pos hq, if_pos hz]
        dsimp only
        have := ih (q - min q m.qty)
        simp only [sumQty_cons] at *
        omega
      · rw [matchFifo, if_pos hq, if_neg hz]
        simp only [sumQty_cons]
        omega
    · rw [matchFifo, if_neg hq]
      dsimp only
      omega

theorem matchFifo_rem_le (tk pr : Int) (q : Int) (l : List Order)
    (h : ∀ o ∈ l, 0 < o.qty) :
    (matchFifo tk pr q l).rem ≤ q := by
  induction l generalizing q with
  | nil => simp [matchFifo]
  | cons m rest ih =>
    by_cases hq : 0 < q
    · have hm := h m (by simp)
      by_cases hz : m.qty - min q m.qty = 0
      · rw [matchFifo, if_pos hq, if_pos hz]
        dsimp only
        have := ih (q - min q m.qty) (fun o ho => h o (by simp [ho]))
        omega
      · rw [matchFifo, if_pos hq, if_neg hz]
        dsimp only
        omega
    · rw [matchFifo, if_neg hq]

theorem matchFifo_rem_nonneg (tk pr : Int) (q : Int) (l : List Order)
    (h : 0 ≤ q) : 0 ≤ (matchFifo tk pr q l).rem := by
  induction l generalizing q with
  | nil => simpa [matchFifo]
  | cons m rest ih =>
    by_cases hq : 0 < q
    · by_cases hz : m.qty - min q m.qty = 0
      · rw [matchFifo, if_pos hq, if_pos hz]
        dsimp only
        exact ih (q - min q m.qty) (by omega)
      · rw [matchFifo, if_pos hq, if_neg hz]
        dsimp only
        omega
    · rwa [matchFifo, if_neg hq]

theorem matchFifo_pos (tk pr : Int) (q : Int) (l : List Order)
    (h : ∀ o ∈ l, 0 < o.qty) :
    ∀ o ∈ (matchFifo tk pr q l).fifo, 0 < o.qty := by
  induction l generalizing q with
  | nil => simp [matchFifo]
  | cons m rest ih =>
    by_cases hq : 0 < q
    · by_cases hz : m.qty - min q m.qty = 0
      · rw [matchFifo, if_pos hq, if_pos hz]
        exact ih (q - min q m.qty) (fun o ho => h o (by simp [ho]))
      · rw [matchFifo, if_pos hq, if_neg hz]
        intro o ho
        simp only [List.mem_cons] at ho
        rcases ho with rfl | ho
        · have := h m (by simp)
          simp only
          omega
        · exact h o (by simp [ho])
    · rw [matchFifo, if_neg hq]
      exact h

/-- Every order left in the level after matching is one of the original orders
with the same id, side and price and no larger quantity. -/
theorem matchFifo_elems (tk pr : Int) (q : Int) (l : List Order) :
    ∀ o ∈ (matchFifo tk pr q l).fifo, ∃ o₀ ∈ l,
      o.id = o₀.id ∧ o.side = o₀.side ∧ o.price = o₀.price ∧ o.qty ≤ o₀.qty := by
  induction l generalizing q with
  | nil => simp [matchFifo]
  | cons m rest ih =>
    by_cases hq : 0 < q
    · by_cases hz : m.qty - min q m.qty = 0
      · rw [matchFifo, if_pos hq, if_pos hz]
        intro o ho
        obtain ⟨o₀, h₀, hids⟩ := ih (q - min q m.qty) o ho
        exact ⟨o₀, by simp [h₀], hids⟩
      · rw [matchFifo, if_pos hq, if_neg hz]
        intro o ho
        simp only [List.mem_cons] at ho
        rcases ho with rfl | ho
        · exact ⟨m, by simp, rfl, rfl, rfl, by simp; omega⟩
        · exact ⟨o, by simp [ho], rfl, rfl, rfl, le_refl _⟩
    · rw [matchFifo, if_neg hq]
      intro o ho
      exact ⟨o, ho, rfl, rfl, rfl, le_refl _⟩

/-- If the incoming order still has quantity after the level match, the level
was drained. -/
theorem matchFifo_pos_rem (tk pr : Int) (q : Int) (l : List Order)
    (h : 0 < (matchFifo tk pr q l).rem) : (matchFifo tk pr q l).fifo = [] := by
  induction l generalizing q with
  | nil => simp [matchFifo]
  | cons m rest ih =>
    by_cases hq : 0 < q
    · by_cases hz : m.qty - min q m.qty = 0
      · rw [matchFifo, if_pos hq, if_pos hz] at h ⊢
        exact ih (q - min q m.qty) h
      · rw [matchFifo, if_pos hq, if_neg hz] at h
        simp only at h
        omega
    · rw [matchFifo, if_neg hq] at h
      simp only at h
      omega

/-- Under positive resting quantities, a fill happened iff some quantity was
consumed iff a trade was emitted. -/
theorem matchFifo_trades_iff (tk pr : Int) (q : Int) (l : List Order)
    (h : ∀ o ∈ l, 0 < o.qty) :
    ((matchFifo tk pr q l).trades = [] ↔ (matchFifo tk pr q l).rem = q) := by
  induction l generalizing q with
  | nil => simp [matchFifo]
  | cons m rest ih =>
    by_cases hq : 0 < q
    · have hm := h m (by simp)
      by_cases hz : m.qty - min q m.qty = 0
      · rw [matchFifo, if_pos hq, if_pos hz]
        simp only [List.cons_ne_nil, false_iff]
        have h1 : (matchFifo tk pr (q - min q m.qty) rest).rem ≤ q - min q m.qty :=
          matchFifo_rem_le _ _ _ _ (fun o ho => h o (by simp [ho]))
        omega
      · rw [matchFifo, if_pos hq, if_neg hz]
        simp only [List.cons_ne_nil, false_iff]
        omega
    · rw [matchFifo, if_neg hq]
      simp

/-! ### The FIFO consumption shape: a match leaves a suffix of the level,
with at most its first element's quantity reduced -/

/-- `SuffixRed l l'` holds when `l'` is obtained from `l` by dropping a prefix
and possibly lowering the quantity of the first remaining order. This is
exactly the shape in which crossing consumes a level: strictly from the head. -/
def SuffixRed (l l' : List Order) : Prop :=
  ∃ k, l' = l.drop k ∨
    ∃ c rest d, l.drop k = c :: rest ∧ l' = { c with qty := c.qty - d } :: rest

theorem SuffixRed.refl (l : List Order) : SuffixRed l l :=
  ⟨0, Or.inl rfl⟩

theorem drop_eq_cons_drop_succ {l : List Order} {k : Nat} {c : Order}
    {rest : List Order} (h : l.drop k = c :: rest) : rest = l.drop (k + 1) := by
  have h2 := congrArg List.tail h
  rw [List.tail_drop, List.tail_cons] at h2
  exact h2.symm

theorem drop_dropO (l : List Order) (k k' : Nat) :
    (l.drop k).drop k' = l.drop (k + k') := by
  rw [List.drop_drop]

theorem SuffixRed.trans {l m n : List Order}
    (h₁ : SuffixRed l m) (h₂ : SuffixRed m n) : SuffixRed l n := by
  obtain ⟨k, hk⟩ := h₁
  obtain ⟨k', hk'⟩ := h₂
  rcases hk with rfl | ⟨c, rest, d, hck, rfl⟩
  · rcases hk' with rfl | ⟨c', rest', d', hck', rfl⟩
    · exact ⟨k + k', Or.inl (drop_dropO l k k')⟩
    · exact ⟨k + k', Or.inr ⟨c', rest', d', by rw [← drop_dropO]; exact hck', rfl⟩⟩
  · rcases hk' with rfl | ⟨c', rest', d', hck', rfl⟩
    · match k', hck with
      | 0, hck => exact ⟨k, Or.inr ⟨c, rest, d, hck, rfl⟩⟩
      | k' + 1, hck =>
        refine ⟨(k + 1) + k', Or.inl ?_⟩
        have hrest : rest = l.drop (k + 1) := drop_eq_cons_drop_succ hck
        have h2 : List.drop (k' + 1) ({ c with qty := c.qty - d } :: rest) = rest.drop k' := rfl
        rw [h2, hrest, drop_dropO]
    · match k', hck' with
      | 0, hck' =>
        have hck'' : ({ c with qty := c.qty - d } :: rest : List Order) = c' :: rest' := hck'
        injection hck'' with h1 h2
        refine ⟨k, Or.inr ⟨c, rest, d + d', hck, ?_⟩⟩
        rw [← h2, ← h1]
        have hqe : c.qty - d - d' = c.qty - (d + d') := by ring
        show ({ id := c.id, side := c.side, price := c.price, qty := c.qty - d - d' } : Order) :: rest =
          ({ id := c.id, side := c.side, price := c.price, qty := c.qty - (d + d') } : Order) :: rest
        rw [hqe]
      | k' + 1, hck' =>
        refine ⟨(k + 1) + k', Or.inr ⟨c', rest', d', ?_, rfl⟩⟩
        have hrest : rest = l.drop (k + 1) := drop_eq_cons_drop_succ hck
        have h2 : List.drop (k' + 1) ({ c with qty := c.qty - d } :: rest) = rest.drop k' := rfl
        rw [h2, hrest, drop_dropO] at hck'
        exact hck'

/-- The inner fill loop consumes strictly from the head. -/
theorem matchFifo_suffixRed (tk pr : Int) (q : Int) (l : List Order) :
    SuffixRed l (matchFifo tk pr q l).fifo := by
  induction l generalizing q with
  | nil => exact ⟨0, Or.inl rfl⟩
  | cons m rest ih =>
    by_cases hq : 0 < q
    · by_cases hz : m.qty - min q m.qty = 0
      · rw [matchFifo, if_pos hq, if_pos hz]
        dsimp only
        obtain ⟨k, hk⟩ := ih (q - min q m.qty)
        rcases hk with hk | ⟨c, rest', d, hck, hl'⟩
        · exact ⟨k + 1, Or.inl hk⟩
        · exact ⟨k + 1, Or.inr ⟨c, rest', d, hck, hl'⟩⟩
      · rw [matchFifo, if_pos hq, if_neg hz]
        exact ⟨0, Or.inr ⟨m, rest, min q m.qty, rfl, rfl⟩⟩
    · rw [matchFifo, if_neg hq]
      exact ⟨0, Or.inl rfl⟩

/-- Ids of a `SuffixRed` result are a suffix of the original ids. -/
theorem SuffixRed.ids {l l' : List Order} (h : SuffixRed l l') :
    ∃ k, l'.map Order.id = (l.map Order.id).drop k := by
  obtain ⟨k, hk⟩ := h
  rcases hk with rfl | ⟨c, rest, d, hck, rfl⟩
  · exact ⟨k, by rw [List.map_drop]⟩
  · refine ⟨k, ?_⟩
    rw [← List.map_drop, hck]
    rfl

/-! ### The best-cursor walks -/

theorem bestAskScan_spec (lv : Int → PriceLevel) :
    ∀ (f : Nat) (i : Int), NUM_LEVELS ≤ i + f →
      i ≤ bestAskScan lv f i ∧
      (i ≤ NUM_LEVELS → bestAskScan lv f i ≤ NUM_LEVELS) ∧
      (bestAskScan lv f i < NUM_LEVELS → (lv (bestAskScan lv f i)).fifo ≠ []) ∧
      (∀ j, i ≤ j → j < bestAskScan lv f i → (lv j).fifo = []) := by
  intro f
  induction f with
  | zero =>
    intro i hf
    rw [bestAskScan]
    refine ⟨le_refl _, fun h => h, fun h => absurd h (by omega), fun j h1 h2 => absurd h2 (by omega)⟩
  | succ f ih =>
    intro i hf
    rw [bestAskScan]
    by_cases hc : i < NUM_LEVELS ∧ (lv i).fifo = []
    · rw [if_pos hc]
      obtain ⟨ih1, ih2, ih3, ih4⟩ := ih (i + 1) (by omega)
      refine ⟨by omega, fun _ => ih2 (by omega), ih3, fun j hj1 hj2 => ?_⟩
      rcases eq_or_lt_of_le hj1 with rfl | hj1
      · exact hc.2
      · exact ih4 j (by omega) hj2
    · rw [if_neg hc]
      refine ⟨le_refl _, fun h => h, fun h => ?_, fun j h1 h2 => absurd h2 (by omega)⟩
      rcases not_and_or.mp hc with h' | h'
      · exact absurd h h'
      · exact h'

theorem updateBestAsk_spec (lv : Int → PriceLevel) (i : Int) :
    i ≤ updateBestAsk lv i ∧
    (i ≤ NUM_LEVELS → updateBestAsk lv i ≤ NUM_LEVELS) ∧
    (updateBestAsk lv i < NUM_LEVELS → (lv (updateBestAsk lv i)).fifo ≠ []) ∧
    (∀ j, i ≤ j → j < updateBestAsk lv i → (lv j).fifo = []) :=
  bestAskScan_spec lv (NUM_LEVELS - i).toNat i (by omega)

theorem updateBestAsk_gt (lv : Int → PriceLevel) (i : Int)
    (h1 : i < NUM_LEVELS) (h2 : (lv i).fifo = []) :
    i + 1 ≤ updateBestAsk lv i := by
  rw [updateBestAsk]
  obtain ⟨f, hf⟩ : ∃ f, (NUM_LEVELS - i).toNat = f + 1 :=
    ⟨(NUM_LEVELS - i).toNat - 1, by omega⟩
  rw [hf, bestAskScan, if_pos ⟨h1, h2⟩]
  exact (bestAskScan_spec lv f (i + 1) (by omega)).1

theorem bestBidScan_spec (lv : Int → PriceLevel) :
    ∀ (f : Nat) (i : Int), i - f ≤ -1 →
      bestBidScan lv f i ≤ i ∧
      (-1 ≤ i → -1 ≤ bestBidScan lv f i) ∧
      (0 ≤ bestBidScan lv f i → (lv (bestBidScan lv f i)).fifo ≠ []) ∧
      (∀ j, bestBidScan lv f i < j → j ≤ i → (lv j).fifo = []) := by
  intro f
  induction f with
  | zero =>
    intro i hf
    rw [bestBidScan]
    refine ⟨le_refl _, fun h => h, fun h => absurd h (by omega), fun j h1 h2 => absurd h2 (by omega)⟩
  | succ f ih =>
    intro i hf
    rw [bestBidScan]
    by_cases hc : 0 ≤ i ∧ (lv i).fifo = []
    · rw [if_pos hc]
      obtain ⟨ih1, ih2, ih3, ih4⟩ := ih (i - 1) (by omega)
      refine ⟨by omega, fun _ => by have := ih2 (by omega); omega, ih3, fun j hj1 hj2 => ?_⟩
      rcases eq_or_lt_of_le hj2 with rfl | hj2
      · exact hc.2
      · exact ih4 j hj1 (by omega)
    · rw [if_neg hc]
      refine ⟨le_refl _, fun h => h, fun h => ?_, fun j h1 h2 => absurd h2 (by omega)⟩
      rcases not_and_or.mp hc with h' | h'
      · exact absurd h (by omega)
      · exact h'

theorem updateBestBid_spec (lv : Int → PriceLevel) (i : Int) :
    updateBestBid lv i ≤ i ∧
    (-1 ≤ i → -1 ≤ updateBestBid lv i) ∧
    (0 ≤ updateBestBid lv i → (lv (updateBestBid lv i)).fifo ≠ []) ∧
    (∀ j, updateBestBid lv i < j → j ≤ i → (lv j).fifo = []) :=
  bestBidScan_spec lv (i + 1).toNat i (by omega)

theorem updateBestBid_lt (lv : Int → PriceLevel) (i : Int)
    (h1 : 0 ≤ i) (h2 : (lv i).fifo = []) :
    updateBestBid lv i ≤ i - 1 := by
  rw [updateBestBid]
  obtain ⟨f, hf⟩ : ∃ f, (i + 1).toNat = f + 1 := ⟨(i + 1).toNat - 1, by omega⟩
  rw [hf, bestBidScan, if_pos ⟨h1, h2⟩]
  exact (bestBidScan_spec lv f (i - 1) (by omega)).1

/-! ### Facts about `eraseP` and `find?` used by `cancel` -/

theorem sumQty_eraseP (p : Order → Bool) (l : List Order) :
    sumQty (l.eraseP p) =
      sumQty l - (match l.find? p with | some o => o.qty | none => 0) := by
  induction l with
  | nil => simp [sumQty_nil]
  | cons o l ih =>
    by_cases h : p o
    · simp [List.eraseP_cons, List.find?_cons, h, sumQty_cons]
    · simp only [List.eraseP_cons, List.find?_cons, h, cond_false, sumQty_cons, ih]
      cases hf : l.find? p with
      | none => simp [hf]
      | some o' =>
        simp only [hf]
        omega

theorem mem_of_mem_eraseP (p : Order → Bool) (l : List Order) :
    ∀ o ∈ l.eraseP p, o ∈ l :=
  fun _ ho => (List.eraseP_sublist l).subset ho

/-! ### Unconditional structure of the matching loops -/

theorem matchBuyLoop_basic (f : Nat) (s : Book) (o : Order) :
    (matchBuyLoop f s o).book.bidLevels = s.bidLevels ∧
    (matchBuyLoop f s o).book.bestBidIdx = s.bestBidIdx ∧
    s.bestAskIdx ≤ (matchBuyLoop f s o).book.bestAskIdx ∧
    (∀ j, SuffixRed (s.askLevels j).fifo ((matchBuyLoop f s o).book.askLevels j).fifo) ∧
    (∀ k, (matchBuyLoop f s o).book.index k = s.index k ∨
      (matchBuyLoop f s o).book.index k = none) := by
  induction f generalizing s o with
  | zero =>
    rw [matchBuyLoop]
    exact ⟨rfl, rfl, le_refl _, fun j => SuffixRed.refl _, fun k => Or.inl rfl⟩
  | succ f ih =>
    rw [matchBuyLoop]
    by_cases hc1 : 0 < o.qty ∧ s.bestAskIdx < NUM_LEVELS
    · rw [if_pos hc1]
      by_cases hc2 : toIndex o.price < s.bestAskIdx
      · rw [if_pos hc2]
        exact ⟨rfl, rfl, le_refl _, fun j => SuffixRed.refl _, fun k => Or.inl rfl⟩
      · rw [if_neg hc2]
        dsimp only
        by_cases hc3 :
            (matchFifo o.id (fromIndex s.bestAskIdx) o.qty (s.askLevels s.bestAskIdx).fifo).fifo = []
        · rw [if_pos hc3]
          dsimp only
          set r := matchFifo o.id (fromIndex s.bestAskIdx) o.qty (s.askLevels s.bestAskIdx).fifo with hr
          set s2 : Book :=
            { s with
              askLevels := updLv s.askLevels s.bestAskIdx
                ⟨r.fifo, (s.askLevels s.bestAskIdx).totalQuantity - (o.qty - r.rem)⟩
              index := eraseIds s.index r.removed
              bestAskIdx := updateBestAsk
                (updLv s.askLevels s.bestAskIdx
                  ⟨r.fifo, (s.askLevels s.bestAskIdx).totalQuantity - (o.qty - r.rem)⟩)
                s.bestAskIdx } with hs2
          obtain ⟨ih1, ih2, ih3, ih4, ih5⟩ := ih s2 { o with qty := r.rem }
          refine ⟨ih1, ih2, ?_, ?_, ?_⟩
          · have h1 : s.bestAskIdx ≤ s2.bestAskIdx :=
              (updateBestAsk_spec _ s.bestAskIdx).1
            exact le_trans h1 ih3
          · intro j
            refine SuffixRed.trans ?_ (ih4 j)
            rcases eq_or_ne j s.bestAskIdx with rfl | hj
            · rw [hs2]
              dsimp only
              rw [updLv_same]
              exact matchFifo_suffixRed _ _ _ _
            · rw [hs2]
              dsimp only
              rw [updLv_other _ _ _ _ hj]
              exact SuffixRed.refl _
          · intro k
            rcases ih5 k with h | h
            · rw [h, hs2]
              dsimp only
              exact eraseIds_cases _ _ _
            · exact Or.inr h
        · rw [if_neg hc3]
          refine ⟨rfl, rfl, le_refl _, ?_, ?_⟩
          · intro j
            rcases eq_or_ne j s.bestAskIdx with rfl | hj
            · dsimp only
              rw [updLv_same]
              exact matchFifo_suffixRed _ _ _ _
            · dsimp only
              rw [updLv_other _ _ _ _ hj]
              exact SuffixRed.refl _
          · intro k
            exact eraseIds_cases _ _ _
    · rw [if_neg hc1]
      exact ⟨rfl, rfl, le_refl _, fun j => SuffixRed.refl _, fun k => Or.inl rfl⟩

theorem matchSellLoop_basic (f : Nat) (s : Book) (o : Order) :
    (matchSellLoop f s o).book.askLevels = s.askLevels ∧
    (matchSellLoop f s o).book.bestAskIdx = s.bestAskIdx ∧
    (matchSellLoop f s o).book.bestBidIdx ≤ s.bestBidIdx ∧
    (∀ j, SuffixRed (s.bidLevels j).fifo ((matchSellLoop f s o).book.bidLevels j).fifo) ∧
    (∀ k, (matchSellLoop f s o).book.index k = s.index k ∨
      (matchSellLoop f s o).book.index k = none) := by
  induction f generalizing s o with
  | zero =>
    rw [matchSellLoop]
    exact ⟨rfl, rfl, le_refl _, fun j => SuffixRed.refl _, fun k => Or.inl rfl⟩
  | succ f ih =>
    rw [matchSellLoop]
    by_cases hc1 : 0 < o.qty ∧ 0 ≤ s.bestBidIdx
    · rw [if_pos hc1]
      by_cases hc2 : s.bestBidIdx < toIndex o.price
      · rw [if_pos hc2]
        exact ⟨rfl, rfl, le_refl _, fun j => SuffixRed.refl _, fun k => Or.inl rfl⟩
      · rw [if_neg hc2]
        dsimp only
        by_cases hc3 :
            (matchFifo o.id (fromIndex s.bestBidIdx) o.qty (s.bidLevels s.bestBidIdx).fifo).fifo = []
        · rw [if_pos hc3]
          dsimp only
          set r := matchFifo o.id (fromIndex s.bestBidIdx) o.qty (s.bidLevels s.bestBidIdx).fifo with hr
          set s2 : Book :=
            { s with
              bidLevels := updLv s.bidLevels s.bestBidIdx
                ⟨r.fifo, (s.bidLevels s.bestBidIdx).totalQuantity - (o.qty - r.rem)⟩
              index := eraseIds s.index r.removed
              bestBidIdx := updateBestBid
                (updLv s.bidLevels s.bestBidIdx
                  ⟨r.fifo, (s.bidLevels s.bestBidIdx).totalQuantity - (o.qty - r.rem)⟩)
                s.bestBidIdx } with hs2
          obtain ⟨ih1, ih2, ih3, ih4, ih5⟩ := ih s2 { o with qty := r.rem }
          refine ⟨ih1, ih2, ?_, ?_, ?_⟩
          · have h1 : s2.bestBidIdx ≤ s.bestBidIdx :=
              (updateBestBid_spec _ s.bestBidIdx).1
            exact le_trans ih3 h1
          · intro j
            refine SuffixRed.trans ?_ (ih4 j)
            rcases eq_or_ne j s.bestBidIdx with rfl | hj
            · rw [hs2]
              dsimp only
              rw [updLv_same]
              exact matchFifo_suffixRed _ _ _ _
            · rw [hs2]
              dsimp only
              rw [updLv_other _ _ _ _ hj]
              exact SuffixRed.refl _
          · intro k
            rcases ih5 k with h | h
            · rw [h, hs2]
              dsimp only
              exact eraseIds_cases _ _ _
            · exact Or.inr h
        · rw [if_neg hc3]
          refine ⟨rfl, rfl, le_refl _, ?_, ?_⟩
          · intro j
            rcases eq_or_ne j s.bestBidIdx with rfl | hj
            · dsimp only
              rw [updLv_same]
              exact matchFifo_suffixRed _ _ _ _
            · dsimp only
              rw [updLv_other _ _ _ _ hj]
              exact SuffixRed.refl _
          · intro k
            exact eraseIds_cases _ _ _
    · rw [if_neg hc1]
      exact ⟨rfl, rfl, le_refl _, fun j => SuffixRed.refl _, fun k => Or.inl rfl⟩

/-! ### The book invariant -/

/-- The inductive invariant of the engine: cached level totals agree with the
FIFO contents, resting quantities are positive, resting orders carry the side
and price of their level, both best cursors are exact, and the book is not
crossed. -/
structure Valid (s : Book) : Prop where
  sumBid : ∀ j, (s.bidLevels j).totalQuantity = sumQty (s.bidLevels j).fifo
  sumAsk : ∀ j, (s.askLevels j).totalQuantity = sumQty (s.askLevels j).fifo
  posBid : ∀ j, ∀ o ∈ (s.bidLevels j).fifo, 0 < o.qty
  posAsk : ∀ j, ∀ o ∈ (s.askLevels j).fifo, 0 < o.qty
  stampBid : ∀ j, ∀ o ∈ (s.bidLevels j).fifo, o.side = Side.buy ∧ o.price = fromIndex j
  stampAsk : ∀ j, ∀ o ∈ (s.askLevels j).fifo, o.side = Side.sell ∧ o.price = fromIndex j
  bidLo : -1 ≤ s.bestBidIdx
  bidHi : s.bestBidIdx ≤ NUM_LEVELS - 1
  bidBest : 0 ≤ s.bestBidIdx → (s.bidLevels s.bestBidIdx).fifo ≠ []
  bidAbove : ∀ j, s.bestBidIdx < j → (s.bidLevels j).fifo = []
  askLo : 0 ≤ s.bestAskIdx
  askHi : s.bestAskIdx ≤ NUM_LEVELS
  askBest : s.bestAskIdx < NUM_LEVELS → (s.askLevels s.bestAskIdx).fifo ≠ []
  askBelow : ∀ j, j < s.bestAskIdx → (s.askLevels j).fifo = []
  uncrossed : s.bestBidIdx < s.bestAskIdx

theorem valid_emptyBook : Valid emptyBook := by
  refine ⟨?_, ?_, ?_, ?_, ?_, ?_, ?_, ?_, ?_, ?_, ?_, ?_, ?_, ?_, ?_⟩ <;>
    simp [emptyBook, emptyLevel, sumQty_nil, NUM_LEVELS, MIN_TICK, MAX_TICK]

/-! ### The matching loops preserve the invariant -/

theorem matchBuyLoop_spec (f : Nat) (s : Book) (o : Order)
    (hf : (NUM_LEVELS - s.bestAskIdx).toNat < f) (hv : Valid s) :
    Valid (matchBuyLoop f s o).book ∧
    (0 < (matchBuyLoop f s o).rem →
      toIndex o.price < (matchBuyLoop f s o).book.bestAskIdx ∨
      NUM_LEVELS ≤ (matchBuyLoop f s o).book.bestAskIdx) ∧
    (0 ≤ o.qty → 0 ≤ (matchBuyLoop f s o).rem) ∧
    (matchBuyLoop f s o).rem ≤ o.qty ∧
    ((matchBuyLoop f s o).trades = [] ↔ (matchBuyLoop f s o).rem = o.qty) := by
  induction f generalizing s o with
  | zero => omega
  | succ f ih =>
    rw [matchBuyLoop]
    by_cases hc1 : 0 < o.qty ∧ s.bestAskIdx < NUM_LEVELS
    · rw [if_pos hc1]
      by_cases hc2 : toIndex o.price < s.bestAskIdx
      · rw [if_pos hc2]
        exact ⟨hv, fun _ => Or.inl hc2, fun h => h, le_refl _, by simp⟩
      · rw [if_neg hc2]
        dsimp only
        have hpos := hv.posAsk s.bestAskIdx
        by_cases hc3 :
            (matchFifo o.id (fromIndex s.bestAskIdx) o.qty (s.askLevels s.bestAskIdx).fifo).fifo = []
        · rw [if_pos hc3]
          dsimp only
          set r := matchFifo o.id (fromIndex s.bestAskIdx) o.qty (s.askLevels s.bestAskIdx).fifo with hr
          set lv1 := updLv s.askLevels s.bestAskIdx
            ⟨r.fifo, (s.askLevels s.bestAskIdx).totalQuantity - (o.qty - r.rem)⟩ with hlv1
          set s2 : Book :=
            { s with
              askLevels := lv1
              index := eraseIds s.index r.removed
              bestAskIdx := updateBestAsk lv1 s.bestAskIdx } with hs2
          have hlv1a : (lv1 s.bestAskIdx).fifo = [] := by
            rw [hlv1, updLv_same]
            exact hc3
          have hua := updateBestAsk_spec lv1 s.bestAskIdx
          have huagt : s.bestAskIdx + 1 ≤ updateBestAsk lv1 s.bestAskIdx :=
            updateBestAsk_gt lv1 s.bestAskIdx hc1.2 hlv1a
          have hv2 : Valid s2 := by
            refine ⟨hv.sumBid, ?_, hv.posBid, ?_, hv.stampBid, ?_, hv.bidLo, hv.bidHi,
              hv.bidBest, hv.bidAbove, ?_, ?_, ?_, ?_, ?_⟩
            · intro j
              rcases eq_or_ne j s.bestAskIdx with rfl | hj
              · rw [hs2]
                dsimp only
                rw [hlv1, updLv_same]
                dsimp only
                rw [matchFifo_sum, ← hv.sumAsk s.bestAskIdx]
              · rw [hs2]
                dsimp only
                rw [hlv1, updLv_other _ _ _ _ hj]
                exact hv.sumAsk j
            · intro j
              rcases eq_or_ne j s.bestAskIdx with rfl | hj
              · rw [hs2]
                dsimp only
                rw [hlv1, updLv_same]
                exact matchFifo_pos _ _ _ _ hpos
              · rw [hs2]
                dsimp only
                rw [hlv1, updLv_other _ _ _ _ hj]
                exact hv.posAsk j
            · intro j
              rcases eq_or_ne j s.bestAskIdx with rfl | hj
              · rw [hs2]
                dsimp only
                rw [hlv1, updLv_same]
                intro o' ho'
                obtain ⟨o₀, h₀, hid, hside, hprice, hqty⟩ :=
                  matchFifo_elems _ _ _ _ o' ho'
                obtain ⟨hs', hp'⟩ := hv.stampAsk s.bestAskIdx o₀ h₀
                exact ⟨hside.trans hs', hprice.trans hp'⟩
              · rw [hs2]
                dsimp only
                rw [hlv1, updLv_other _ _ _ _ hj]
                exact hv.stampAsk j
            · rw [hs2]
              dsimp only
              have := hv.askLo
              omega
            · rw [hs2]
              dsimp only
              exact hua.2.1 (by omega)
            · rw [hs2]
              dsimp only
              exact hua.2.2.1
            · rw [hs2]
              dsimp only
              intro j hj
              rcases lt_or_le j s.bestAskIdx with hja | hja
              · rw [hlv1, updLv_other _ _ _ _ (by omega)]
                exact hv.askBelow j hja
              · exact hua.2.2.2 j hja hj
            · rw [hs2]
              dsimp only
              have := hv.uncrossed
              omega
          have hf2 : (NUM_LEVELS - s2.bestAskIdx).toNat < f := by
            rw [hs2]
            dsimp only
            have hx1 : (NUM_LEVELS - s.bestAskIdx).toNat < f + 1 := hf
            have hx2 : s.bestAskIdx < NUM_LEVELS := hc1.2
            omega
          obtain ⟨ihV, ihrem, ihnn, ihle, ihiff⟩ := ih s2 { o with qty := r.rem } hf2 hv2
          have hr_nn : 0 ≤ r.rem := matchFifo_rem_nonneg _ _ _ _ (by omega)
          have hr_le : r.rem ≤ o.qty := matchFifo_rem_le _ _ _ _ hpos
          have hr_iff := matchFifo_trades_iff o.id (fromIndex s.bestAskIdx) o.qty
            (s.askLevels s.bestAskIdx).fifo hpos
          refine ⟨ihV, ihrem, fun _ => ihnn hr_nn, le_trans ihle hr_le, ?_⟩
          rw [List.append_eq_nil]
          constructor
          · rintro ⟨h1, h2⟩
            have e1 : r.rem = o.qty := hr_iff.mp h1
            have e2 := ihiff.mp h2
            dsimp only at e2
            omega
          · intro h
            have hle2 := ihle
            dsimp only at hle2
            have e1 : r.rem = o.qty := by omega
            exact ⟨hr_iff.mpr e1, ihiff.mpr (by dsimp only; omega)⟩
        · rw [if_neg hc3]
          dsimp only
          set r := matchFifo o.id (fromIndex s.bestAskIdx) o.qty (s.askLevels s.bestAskIdx).fifo with hr
          have hVout : Valid
              { s with
                askLevels := updLv s.askLevels s.bestAskIdx
                  ⟨r.fifo, (s.askLevels s.bestAskIdx).totalQuantity - (o.qty - r.rem)⟩
                index := eraseIds s.index r.removed } := by
            refine ⟨hv.sumBid, ?_, hv.posBid, ?_, hv.stampBid, ?_, hv.bidLo, hv.bidHi,
              hv.bidBest, hv.bidAbove, hv.askLo, hv.askHi, ?_, ?_, hv.uncrossed⟩
            · intro j
              rcases eq_or_ne j s.bestAskIdx with rfl | hj
              · dsimp only
                rw [updLv_same]
                dsimp only
                rw [matchFifo_sum, ← hv.sumAsk s.bestAskIdx]
              · dsimp only
                rw [updLv_other _ _ _ _ hj]
                exact hv.sumAsk j
            · intro j
              rcases eq_or_ne j s.bestAskIdx with rfl | hj
              · dsimp only
                rw [updLv_same]
                exact matchFifo_pos _ _ _ _ hpos
              · dsimp only
                rw [updLv_other _ _ _ _ hj]
                exact hv.posAsk j
            · intro j
              rcases eq_or_ne j s.bestAskIdx with rfl | hj
              · dsimp only
                rw [updLv_same]
                intro o' ho'
                obtain ⟨o₀, h₀, hid, hside, hprice, hqty⟩ :=
                  matchFifo_elems _ _ _ _ o' ho'
                obtain ⟨hs', hp'⟩ := hv.stampAsk s.bestAskIdx o₀ h₀
                exact ⟨hside.trans hs', hprice.trans hp'⟩
              · dsimp only
                rw [updLv_other _ _ _ _ hj]
                exact hv.stampAsk j
            · dsimp only
              intro h
              rw [updLv_same]
              exact hc3
            · dsimp only
              intro j hj
              rw [updLv_other _ _ _ _ (by omega)]
              exact hv.askBelow j hj
          refine ⟨hVout, ?_, fun _ => matchFifo_rem_nonneg _ _ _ _ (by omega),
            matchFifo_rem_le _ _ _ _ hpos, matchFifo_trades_iff _ _ _ _ hpos⟩
          intro hrem
          exact absurd (matchFifo_pos_rem _ _ _ _ hrem) hc3
    · rw [if_neg hc1]
      refine ⟨hv, ?_, fun h => h, le_refl _, by simp⟩
      intro h
      dsimp only at h ⊢
      rcases not_and_or.mp hc1 with h' | h'
      · exact absurd h h'
      · right
        omega

theorem matchSellLoop_spec (f : Nat) (s : Book) (o : Order)
    (hf : (s.bestBidIdx + 1).toNat < f) (hv : Valid s) :
    Valid (matchSellLoop f s o).book ∧
    (0 < (matchSellLoop f s o).rem →
      (matchSellLoop f s o).book.bestBidIdx < toIndex o.price ∨
      (matchSellLoop f s o).book.bestBidIdx < 0) ∧
    (0 ≤ o.qty → 0 ≤ (matchSellLoop f s o).rem) ∧
    (matchSellLoop f s o).rem ≤ o.qty ∧
    ((matchSellLoop f s o).trades = [] ↔ (matchSellLoop f s o).rem = o.qty) := by
  induction f generalizing s o with
  | zero => omega
  | succ f ih =>
    rw [matchSellLoop]
    by_cases hc1 : 0 < o.qty ∧ 0 ≤ s.bestBidIdx
    · rw [if_pos hc1]
      by_cases hc2 : s.bestBidIdx < toIndex o.price
      · rw [if_pos hc2]
        exact ⟨hv, fun _ => Or.inl hc2, fun h => h, le_refl _, by simp⟩
      · rw [if_neg hc2]
        dsimp only
        have hpos := hv.posBid s.bestBidIdx
        by_cases hc3 :
            (matchFifo o.id (fromIndex s.bestBidIdx) o.qty (s.bidLevels s.bestBidIdx).fifo).fifo = []
        · rw [if_pos hc3]
          dsimp only
          set r := matchFifo o.id (fromIndex s.bestBidIdx) o.qty (s.bidLevels s.bestBidIdx).fifo with hr
          set lv1 := updLv s.bidLevels s.bestBidIdx
            ⟨r.fifo, (s.bidLevels s.bestBidIdx).totalQuantity - (o.qty - r.rem)⟩ with hlv1
          set s2 : Book :=
            { s with
              bidLevels := lv1
              index := eraseIds s.index r.removed
              bestBidIdx := updateBestBid lv1 s.bestBidIdx } with hs2
          have hlv1a : (lv1 s.bestBidIdx).fifo = [] := by
            rw [hlv1, updLv_same]
            exact hc3
          have hub := updateBestBid_spec lv1 s.bestBidIdx
          have hublt : updateBestBid lv1 s.bestBidIdx ≤ s.bestBidIdx - 1 :=
            updateBestBid_lt lv1 s.bestBidIdx hc1.2 hlv1a
          have hv2 : Valid s2 := by
            refine ⟨?_, hv.sumAsk, ?_, hv.posAsk, ?_, hv.stampAsk, ?_, ?_, ?_, ?_,
              hv.askLo, hv.askHi, hv.askBest, hv.askBelow, ?_⟩
            · intro j
              rcases eq_or_ne j s.bestBidIdx with rfl | hj
              · rw [hs2]
                dsimp only
                rw [hlv1, updLv_same]
                dsimp only
                rw [matchFifo_sum, ← hv.sumBid s.bestBidIdx]
              · rw [hs2]
                dsimp only
                rw [hlv1, updLv_other _ _ _ _ hj]
                exact hv.sumBid j
            · intro j
              rcases eq_or_ne j s.bestBidIdx with rfl | hj
              · rw [hs2]
                dsimp only
                rw [hlv1, updLv_same]
                exact matchFifo_pos _ _ _ _ hpos
              · rw [hs2]
                dsimp only
                rw [hlv1, updLv_other _ _ _ _ hj]
                exact hv.posBid j
            · intro j
              rcases eq_or_ne j s.bestBidIdx with rfl | hj
              · rw [hs2]
                dsimp only
                rw [hlv1, updLv_same]
                intro o' ho'
                obtain ⟨o₀, h₀, hid, hside, hprice, hqty⟩ :=
                  matchFifo_elems _ _ _ _ o' ho'
                obtain ⟨hs', hp'⟩ := hv.stampBid s.bestBidIdx o₀ h₀
                exact ⟨hside.trans hs', hprice.trans hp'⟩
              · rw [hs2]
                dsimp only
                rw [hlv1, updLv_other _ _ _ _ hj]
                exact hv.stampBid j
            · rw [hs2]
              dsimp only
              exact hub.2.1 (by omega)
            · rw [hs2]
              dsimp only
              have := hv.bidHi
              omega
            · rw [hs2]
              dsimp only
              exact hub.2.2.1
            · rw [hs2]
              dsimp only
              intro j hj
              rcases lt_or_le s.bestBidIdx j with hja | hja
              · rw [hlv1, updLv_other _ _ _ _ (by omega)]
                exact hv.bidAbove j hja
              · exact hub.2.2.2 j hj hja
            · rw [hs2]
              dsimp only
              have := hv.uncrossed
              omega
          have hf2 : (s2.bestBidIdx + 1).toNat < f := by
            rw [hs2]
            dsimp only
            have hx1 : (s.bestBidIdx + 1).toNat < f + 1 := hf
            have hx2 : 0 ≤ s.bestBidIdx := hc1.2
            omega
          obtain ⟨ihV, ihrem, ihnn, ihle, ihiff⟩ := ih s2 { o with qty := r.rem } hf2 hv2
          have hr_nn : 0 ≤ r.rem := matchFifo_rem_nonneg _ _ _ _ (by omega)
          have hr_le : r.rem ≤ o.qty := matchFifo_rem_le _ _ _ _ hpos
          have hr_iff := matchFifo_trades_iff o.id (fromIndex s.bestBidIdx) o.qty
            (s.bidLevels s.bestBidIdx).fifo hpos
          refine ⟨ihV, ihrem, fun _ => ihnn hr_nn, le_trans ihle hr_le, ?_⟩
          rw [List.append_eq_nil]
          constructor
          · rintro ⟨h1, h2⟩
            have e1 : r.rem = o.qty := hr_iff.mp h1
            have e2 := ihiff.mp h2
            dsimp only at e2
            omega
          · intro h
            have hle2 := ihle
            dsimp only at hle2
            have e1 : r.rem = o.qty := by omega
            exact ⟨hr_iff.mpr e1, ihiff.mpr (by dsimp only; omega)⟩
        · rw [if_neg hc3]
          dsimp only
          set r := matchFifo o.id (fromIndex s.bestBidIdx) o.qty (s.bidLevels s.bestBidIdx).fifo with hr
          have hVout : Valid
              { s with
                bidLevels := updLv s.bidLevels s.bestBidIdx
                  ⟨r.fifo, (s.bidLevels s.bestBidIdx).totalQuantity - (o.qty - r.rem)⟩
                index := eraseIds s.index r.removed } := by
            refine ⟨?_, hv.sumAsk, ?_, hv.posAsk, ?_, hv.stampAsk, hv.bidLo, hv.bidHi,
              ?_, ?_, hv.askLo, hv.askHi, hv.askBest, hv.askBelow, hv.uncrossed⟩
            · intro j
              rcases eq_or_ne j s.bestBidIdx with rfl | hj
              · dsimp only
                rw [updLv_same]
                dsimp only
                rw [matchFifo_sum, ← hv.sumBid s.bestBidIdx]
              · dsimp only
                rw [updLv_other _ _ _ _ hj]
                exact hv.sumBid j
            · intro j
              rcases eq_or_ne j s.bestBidIdx with rfl | hj
              · dsimp only
                rw [updLv_same]
                exact matchFifo_pos _ _ _ _ hpos
              · dsimp only
                rw [updLv_other _ _ _ _ hj]
                exact hv.posBid j
            · intro j
              rcases eq_or_ne j s.bestBidIdx with rfl | hj
              · dsimp only
                rw [updLv_same]
                intro o' ho'
                obtain ⟨o₀, h₀, hid, hside, hprice, hqty⟩ :=
                  matchFifo_elems _ _ _ _ o' ho'
                obtain ⟨hs', hp'⟩ := hv.stampBid s.bestBidIdx o₀ h₀
                exact ⟨hside.trans hs', hprice.trans hp'⟩
              · dsimp only
                rw [updLv_other _ _ _ _ hj]
                exact hv.stampBid j
            · dsimp only
              intro h
              rw [updLv_same]
              exact hc3
            · dsimp only
              intro j hj
              rw [updLv_other _ _ _ _ (by omega)]
              exact hv.bidAbove j hj
          refine ⟨hVout, ?_, fun _ => matchFifo_rem_nonneg _ _ _ _ (by omega),
            matchFifo_rem_le _ _ _ _ hpos, matchFifo_trades_iff _ _ _ _ hpos⟩
          intro hrem
          exact absurd (matchFifo_pos_rem _ _ _ _ hrem) hc3
    · rw [if_neg hc1]
      refine ⟨hv, ?_, fun h => h, le_refl _, by simp⟩
      intro h
      dsimp only at h ⊢
      rcases not_and_or.mp hc1 with h' | h'
      · exact absurd h h'
      · right
        omega

/-! ### `addToBook`, `matchIncoming` and `cancel` preserve the invariant -/

theorem addToBook_valid (s : Book) (o : Order) (hv : Valid s)
    (hb : o.side = Side.buy → toIndex o.price < s.bestAskIdx)
    (ha : o.side = Side.sell → s.bestBidIdx < toIndex o.price) :
    Valid (addToBook s o).2 := by
  rw [addToBook]
  by_cases h1 : o.qty ≤ 0
  · rwa [if_pos h1]
  · rw [if_neg h1]
    by_cases h2 : o.price < MIN_TICK ∨ MAX_TICK < o.price
    · rwa [if_pos h2]
    · rw [if_neg h2]
      by_cases h3 : (s.index o.id).isSome
      · rwa [if_pos h3]
      · rw [if_neg h3]
        have hidx0 : 0 ≤ toIndex o.price := by
          simp only [toIndex, MIN_TICK] at *
          omega
        have hidx1 : toIndex o.price ≤ NUM_LEVELS - 1 := by
          simp only [toIndex, NUM_LEVELS, MIN_TICK, MAX_TICK] at *
          omega
        have hfrom : fromIndex (toIndex o.price) = o.price := by
          simp [fromIndex, toIndex]
        cases hside : o.side with
        | buy =>
          dsimp only
          refine ⟨?_, hv.sumAsk, ?_, hv.posAsk, ?_, hv.stampAsk, ?_, ?_, ?_, ?_,
            hv.askLo, hv.askHi, hv.askBest, hv.askBelow, ?_⟩
          · intro j
            dsimp only
            rcases eq_or_ne j (toIndex o.price) with rfl | hj
            · rw [updLv_same]
              dsimp only
              rw [sumQty_append, hv.sumBid (toIndex o.price), sumQty_cons, sumQty_nil]
              ring
            · rw [updLv_other _ _ _ _ hj]
              exact hv.sumBid j
          · intro j
            dsimp only
            rcases eq_or_ne j (toIndex o.price) with rfl | hj
            · rw [updLv_same]
              intro o' ho'
              dsimp only at ho'
              rcases List.mem_append.mp ho' with h | h
              · exact hv.posBid (toIndex o.price) o' h
              · simp only [List.mem_singleton] at h
                subst h
                omega
            · rw [updLv_other _ _ _ _ hj]
              exact hv.posBid j
          · intro j
            dsimp only
            rcases eq_or_ne j (toIndex o.price) with rfl | hj
            · rw [updLv_same]
              intro o' ho'
              dsimp only at ho'
              rcases List.mem_append.mp ho' with h | h
              · exact hv.stampBid (toIndex o.price) o' h
              · simp only [List.mem_singleton] at h
                subst h
                exact ⟨hside, hfrom.symm⟩
            · rw [updLv_other _ _ _ _ hj]
              exact hv.stampBid j
          · dsimp only
            have := hv.bidLo
            split <;> omega
          · dsimp only
            have := hv.bidHi
            split <;> omega
          · dsimp only
            split
            · intro h
              rw [updLv_same]
              simp
            · intro h
              rcases eq_or_ne s.bestBidIdx (toIndex o.price) with he | he
              · rw [he, updLv_same]
                simp
              · rw [updLv_other _ _ _ _ he]
                exact hv.bidBest h
          · dsimp only
            intro j hj
            split at hj
            · rw [updLv_other _ _ _ _ (by omega)]
              exact hv.bidAbove j (by omega)
            · rw [updLv_other _ _ _ _ (by omega)]
              exact hv.bidAbove j hj
          · dsimp only
            have h4 := hb hside
            have := hv.uncrossed
            split <;> omega
        | sell =>
          dsimp only
          refine ⟨hv.sumBid, ?_, hv.posBid, ?_, hv.stampBid, ?_, hv.bidLo, hv.bidHi,
            hv.bidBest, hv.bidAbove, ?_, ?_, ?_, ?_, ?_⟩
          · intro j
            dsimp only
            rcases eq_or_ne j (toIndex o.price) with rfl | hj
            · rw [updLv_same]
              dsimp only
              rw [sumQty_append, hv.sumAsk (toIndex o.price), sumQty_cons, sumQty_nil]
              ring
            · rw [updLv_other _ _ _ _ hj]
              exact hv.sumAsk j
          · intro j
            dsimp only
            rcases eq_or_ne j (toIndex o.price) with rfl | hj
            · rw [updLv_same]
              intro o' ho'
              dsimp only at ho'
              rcases List.mem_append.mp ho' with h | h
              · exact hv.posAsk (toIndex o.price) o' h
              · simp only [List.mem_singleton] at h
                subst h
                omega
            · rw [updLv_other _ _ _ _ hj]
              exact hv.posAsk j
          · intro j
            dsimp only
            rcases eq_or_ne j (toIndex o.price) with rfl | hj
            · rw [updLv_same]
              intro o' ho'
              dsimp only at ho'
              rcases List.mem_append.mp ho' with h | h
              · exact hv.stampAsk (toIndex o.price) o' h
              · simp only [List.mem_singleton] at h
                subst h
                exact ⟨hside, hfrom.symm⟩
            · rw [updLv_other _ _ _ _ hj]
              exact hv.stampAsk j
          · dsimp only
            have := hv.askLo
            split <;> omega
          · dsimp only
            have := hv.askHi
            split <;> omega
          · dsimp only
            split
            · intro h
              rw [updLv_same]
              simp
            · intro h
              rcases eq_or_ne s.bestAskIdx (toIndex o.price) with he | he
              · rw [he, updLv_same]
                simp
              · rw [updLv_other _ _ _ _ he]
                exact hv.askBest h
          · dsimp only
            intro j hj
            split at hj
            · rw [updLv_other _ _ _ _ (by omega)]
              exact hv.askBelow j (by omega)
            · rw [updLv_other _ _ _ _ (by omega)]
              exact hv.askBelow j hj
          · dsimp only
            have h4 := ha hside
            have := hv.uncrossed
            split <;> omega

theorem matchIncomingFull_valid (s : Book) (o : Order) (hv : Valid s) :
    Valid (matchIncomingFull s o).book := by
  rw [matchIncomingFull]
  by_cases h1 : o.qty ≤ 0
  · rwa [if_pos h1]
  · rw [if_neg h1]
    by_cases h2 : o.price < MIN_TICK ∨ MAX_TICK < o.price
    · rwa [if_pos h2]
    · rw [if_neg h2]
      have hidx1 : toIndex o.price ≤ NUM_LEVELS - 1 := by
        simp only [toIndex, NUM_LEVELS, MIN_TICK, MAX_TICK] at *
        omega
      cases hside : o.side with
      | buy =>
        dsimp only
        obtain ⟨hV, hrem, hnn, hle, hiff⟩ :=
          matchBuyLoop_spec ((NUM_LEVELS - s.bestAskIdx).toNat + 1) s o (by omega) hv
        by_cases h3 : 0 < (matchBuyLoop ((NUM_LEVELS - s.bestAskIdx).toNat + 1) s o).rem
        · rw [if_pos h3]
          refine addToBook_valid _ _ hV ?_ ?_
          · intro _
            dsimp only
            rcases hrem h3 with h | h
            · exact h
            · omega
          · intro hcontra
            exact Side.noConfusion hcontra
        · rwa [if_neg h3]
      | sell =>
        dsimp only
        obtain ⟨hV, hrem, hnn, hle, hiff⟩ :=
          matchSellLoop_spec ((s.bestBidIdx + 1).toNat + 1) s o (by omega) hv
        by_cases h3 : 0 < (matchSellLoop ((s.bestBidIdx + 1).toNat + 1) s o).rem
        · rw [if_pos h3]
          refine addToBook_valid _ _ hV ?_ ?_
          · intro hcontra
            exact Side.noConfusion hcontra
          · intro _
            dsimp only
            have h0 : 0 ≤ toIndex o.price := by
              simp only [toIndex, MIN_TICK] at *
              omega
            rcases hrem h3 with h | h
            · exact h
            · omega
        · rwa [if_neg h3]

theorem cancel_valid (s : Book) (id : Int) (hv : Valid s) : Valid (cancel s id).2 := by
  rw [cancel]
  cases hix : s.index id with
  | none => exact hv
  | some ref =>
    dsimp only
    cases hside : ref.side with
    | buy =>
      dsimp only
      by_cases hcb : (s.bidLevels (toIndex ref.price)).fifo.eraseP
          (fun o => o.id = id) = [] ∧ toIndex ref.price = s.bestBidIdx
      · rw [if_pos hcb]
        have hub := updateBestBid_spec
          (updLv s.bidLevels (toIndex ref.price)
            ⟨(s.bidLevels (toIndex ref.price)).fifo.eraseP (fun o => o.id = id),
             (s.bidLevels (toIndex ref.price)).totalQuantity -
               (match (s.bidLevels (toIndex ref.price)).fifo.find? (fun o => o.id = id) with
                | some o => o.qty
                | none => 0)⟩)
          s.bestBidIdx
        refine ⟨?_, hv.sumAsk, ?_, hv.posAsk, ?_, hv.stampAsk, ?_, ?_, ?_, ?_,
          hv.askLo, hv.askHi, hv.askBest, hv.askBelow, ?_⟩
        · intro j
          dsimp only
          rcases eq_or_ne j (toIndex ref.price) with rfl | hj
          · rw [updLv_same]
            dsimp only
            rw [sumQty_eraseP, ← hv.sumBid (toIndex ref.price)]
          · rw [updLv_other _ _ _ _ hj]
            exact hv.sumBid j
        · intro j
          dsimp only
          rcases eq_or_ne j (toIndex ref.price) with rfl | hj
          · rw [updLv_same]
            intro o' ho'
            exact hv.posBid (toIndex ref.price) o' (mem_of_mem_eraseP _ _ o' ho')
          · rw [updLv_other _ _ _ _ hj]
            exact hv.posBid j
        · intro j
          dsimp only
          rcases eq_or_ne j (toIndex ref.price) with rfl | hj
          · rw [updLv_same]
            intro o' ho'
            exact hv.stampBid (toIndex ref.price) o' (mem_of_mem_eraseP _ _ o' ho')
          · rw [updLv_other _ _ _ _ hj]
            exact hv.stampBid j
        · dsimp only
          have := hv.bidLo
          have := hub.2.1 (by omega)
          omega
        · dsimp only
          have := hv.bidHi
          have := hub.1
          omega
        · dsimp only
          exact hub.2.2.1
        · dsimp only
          intro j hj
          rcases le_or_lt j s.bestBidIdx with hja | hja
          · exact hub.2.2.2 j hj hja
          · rw [updLv_other _ _ _ _ (by omega)]
            exact hv.bidAbove j hja
        · dsimp only
          have := hv.uncrossed
          have := hub.1
          omega
      · rw [if_neg hcb]
        refine ⟨?_, hv.sumAsk, ?_, hv.posAsk, ?_, hv.stampAsk, hv.bidLo, hv.bidHi,
          ?_, ?_, hv.askLo, hv.askHi, hv.askBest, hv.askBelow, hv.uncrossed⟩
        · intro j
          dsimp only
          rcases eq_or_ne j (toIndex ref.price) with rfl | hj
          · rw [updLv_same]
            dsimp only
            rw [sumQty_eraseP, ← hv.sumBid (toIndex ref.price)]
          · rw [updLv_other _ _ _ _ hj]
            exact hv.sumBid j
        · intro j
          dsimp only
          rcases eq_or_ne j (toIndex ref.price) with rfl | hj
          · rw [updLv_same]
            intro o' ho'
            exact hv.posBid (toIndex ref.price) o' (mem_of_mem_eraseP _ _ o' ho')
          · rw [updLv_other _ _ _ _ hj]
            exact hv.posBid j
        · intro j
          dsimp only
          rcases eq_or_ne j (toIndex ref.price) with rfl | hj
          · rw [updLv_same]
            intro o' ho'
            exact hv.stampBid (toIndex ref.price) o' (mem_of_mem_eraseP _ _ o' ho')
          · rw [updLv_other _ _ _ _ hj]
            exact hv.stampBid j
        · dsimp only
          intro h
          rcases eq_or_ne s.bestBidIdx (toIndex ref.price) with he | he
          · rw [he, updLv_same]
            dsimp only
            rcases not_and_or.mp hcb with h' | h'
            · exact h'
            · exact absurd he.symm h'
          · rw [updLv_other _ _ _ _ he]
            exact hv.bidBest h
        · dsimp only
          intro j hj
          rcases eq_or_ne j (toIndex ref.price) with rfl | hj2
          · rw [updLv_same]
            dsimp only
            have hemp : (s.bidLevels (toIndex ref.price)).fifo = [] :=
              hv.bidAbove (toIndex ref.price) hj
            rw [hemp, List.eraseP_nil]
          · rw [updLv_other _ _ _ _ hj2]
            exact hv.bidAbove j hj
    | sell =>
      dsimp only
      by_cases hcb : (s.askLevels (toIndex ref.price)).fifo.eraseP
          (fun o => o.id = id) = [] ∧ toIndex ref.price = s.bestAskIdx
      · rw [if_pos hcb]
        have hua := updateBestAsk_spec
          (updLv s.askLevels (toIndex ref.price)
            ⟨(s.askLevels (toIndex ref.price)).fifo.eraseP (fun o => o.id = id),
             (s.askLevels (toIndex ref.price)).totalQuantity -
               (match (s.askLevels (toIndex ref.price)).fifo.find? (fun o => o.id = id) with
                | some o => o.qty
                | none => 0)⟩)
          s.bestAskIdx
        refine ⟨hv.sumBid, ?_, hv.posBid, ?_, hv.stampBid, ?_, hv.bidLo, hv.bidHi,
          hv.bidBest, hv.bidAbove, ?_, ?_, ?_, ?_, ?_⟩
        · intro j
          dsimp only
          rcases eq_or_ne j (toIndex ref.price) with rfl | hj
          · rw [updLv_same]
            dsimp only
            rw [sumQty_eraseP, ← hv.sumAsk (toIndex ref.price)]
          · rw [updLv_other _ _ _ _ hj]
            exact hv.sumAsk j
        · intro j
          dsimp only
          rcases eq_or_ne j (toIndex ref.price) with rfl | hj
          · rw [updLv_same]
            intro o' ho'
            exact hv.posAsk (toIndex ref.price) o' (mem_of_mem_eraseP _ _ o' ho')
          · rw [updLv_other _ _ _ _ hj]
            exact hv.posAsk j
        · intro j
          dsimp only
          rcases eq_or_ne j (toIndex ref.price) with rfl | hj
          · rw [updLv_same]
            intro o' ho'
            exact hv.stampAsk (toIndex ref.price) o' (mem_of_mem_eraseP _ _ o' ho')
          · rw [updLv_other _ _ _ _ hj]
            exact hv.stampAsk j
        · dsimp only
          have := hv.askLo
          have := hua.1
          omega
        · dsimp only
          have := hv.askHi
          have := hua.2.1 (by omega)
          omega
        · dsimp only
          exact hua.2.2.1
        · dsimp only
          intro j hj
          rcases le_or_lt s.bestAskIdx j with hja | hja
          · exact hua.2.2.2 j hja hj
          · rw [updLv_other _ _ _ _ (by omega)]
            exact hv.askBelow j hja
        · dsimp only
          have := hv.uncrossed
          have := hua.1
          omega
      · rw [if_neg hcb]
        refine ⟨hv.sumBid, ?_, hv.posBid, ?_, hv.stampBid, ?_, hv.bidLo, hv.bidHi,
          hv.bidBest, hv.bidAbove, hv.askLo, hv.askHi, ?_, ?_, hv.uncrossed⟩
        · intro j
          dsimp only
          rcases eq_or_ne j (toIndex ref.price) with rfl | hj
          · rw [updLv_same]
            dsimp only
            rw [sumQty_eraseP, ← hv.sumAsk (toIndex ref.price)]
          · rw [updLv_other _ _ _ _ hj]
            exact hv.sumAsk j
        · intro j
          dsimp only
          rcases eq_or_ne j (toIndex ref.price) with rfl | hj
          · rw [updLv_same]
            intro o' ho'
            exact hv.posAsk (toIndex ref.price) o' (mem_of_mem_eraseP _ _ o' ho')
          · rw [updLv_other _ _ _ _ hj]
            exact hv.posAsk j
        · intro j
          dsimp only
          rcases eq_or_ne j (toIndex ref.price) with rfl | hj
          · rw [updLv_same]
            intro o' ho'
            exact hv.stampAsk (toIndex ref.price) o' (mem_of_mem_eraseP _ _ o' ho')
          · rw [updLv_other _ _ _ _ hj]
            exact hv.stampAsk j
        · dsimp only
          intro h
          rcases eq_or_ne s.bestAskIdx (toIndex ref.price) with he | he
          · rw [he, updLv_same]
            dsimp only
            rcases not_and_or.mp hcb with h' | h'
            · exact h'
            · exact absurd he.symm h'
          · rw [updLv_other _ _ _ _ he]
            exact hv.askBest h
        · dsimp only
          intro j hj
          rcases eq_or_ne j (toIndex ref.price) with rfl | hj2
          · rw [updLv_same]
            dsimp only
            have hemp : (s.askLevels (toIndex ref.price)).fifo = [] :=
              hv.askBelow (toIndex ref.price) hj
            rw [hemp, List.eraseP_nil]
          · rw [updLv_other _ _ _ _ hj2]
            exact hv.askBelow j hj

theorem matchIncoming_valid (s : Book) (o : Order) (hv : Valid s) :
    Valid (matchIncoming s o).1 :=
  matchIncomingFull_valid s o hv

theorem replace_valid (s : Book) (id p q : Int) (hv : Valid s) :
    Valid (replace s id p q).2.1 := by
  rw [replace]
  cases hix : s.index id with
  | none => exact hv
  | some ref =>
    dsimp only
    by_cases hc : (cancel s id).1
    · rw [if_pos hc]
      exact matchIncoming_valid _ _ (cancel_valid s id hv)
    · rw [if_neg hc]
      exact cancel_valid s id hv

/-- Every reachable state satisfies the invariant. -/
theorem reachable_valid (s : Book) (h : Reachable s) : Valid s := by
  induction h with
  | init => exact valid_emptyBook
  | submit s o _ ih => exact matchIncoming_valid s o ih
  | cancel s id _ ih => exact cancel_valid s id ih
  | replace s id p q _ ih => exact replace_valid s id p q ih

/-! ### FIFO priority within a level -/

/-- The price-time-priority invariant for one level, tracked relative to an
older order (by id `aid`) and a younger order `B` behind it: either the older
order has been fully consumed, or it still precedes `B` and `B` is completely
untouched (the literal record `B`, hence with its original quantity). -/
def FifoInv (aid : Int) (B : Order) (l : List Order) : Prop :=
  aid ∉ l.map Order.id ∨
  ∃ pre2 A2 mid2 post2, l = pre2 ++ A2 :: (mid2 ++ B :: post2) ∧ A2.id = aid ∧
    aid ∉ (pre2 ++ (mid2 ++ B :: post2)).map Order.id

theorem fifoInv_append (aid : Int) (B : Order) (l : List Order) (x : Order)
    (hx : x.id ≠ aid) (h : FifoInv aid B l) : FifoInv aid B (l ++ [x]) := by
  rcases h with h | ⟨pre2, A2, mid2, post2, rfl, hA2, hnot⟩
  · left
    simp only [List.map_append, List.mem_append] at *
    rintro (h' | h')
    · exact h h'
    · simp only [List.map_cons, List.map_nil, List.mem_singleton] at h'
      exact hx h'.symm
  · right
    refine ⟨pre2, A2, mid2, post2 ++ [x], by simp, hA2, ?_⟩
    intro hmem
    obtain ⟨y, hy, hyid⟩ := List.mem_map.mp hmem
    have hy2 : y ∈ pre2 ++ (mid2 ++ B :: post2) ∨ y = x := by
      simp only [List.mem_append, List.mem_cons, List.mem_singleton] at hy ⊢
      tauto
    rcases hy2 with hy2 | rfl
    · exact hnot (List.mem_map.mpr ⟨y, hy2, hyid⟩)
    · exact hx hyid

theorem fifoInv_suffixRed (aid : Int) (B : Order) (l l' : List Order)
    (hsr : SuffixRed l l') (h : FifoInv aid B l) : FifoInv aid B l' := by
  rcases h with h | ⟨pre2, A2, mid2, post2, hl, hA2, hnot⟩
  · left
    obtain ⟨k, hk⟩ := hsr.ids
    rw [hk]
    intro hmem
    exact h (List.drop_subset _ _ hmem)
  · obtain ⟨k, hk⟩ := hsr
    rcases le_or_lt k pre2.length with hkle | hkgt
    · have hdrop : l.drop k = pre2.drop k ++ A2 :: (mid2 ++ B :: post2) := by
        rw [hl]
        exact List.drop_append_of_le_length hkle
      have hsubpre : ∀ y ∈ pre2.drop k, y ∈ pre2 := fun y hy => List.drop_subset _ _ hy
      rcases hk with rfl | ⟨c, rest, d, hck, rfl⟩
      · right
        refine ⟨pre2.drop k, A2, mid2, post2, hdrop, hA2, ?_⟩
        simp only [List.map_append, List.mem_append] at hnot ⊢
        rintro (h' | h')
        · obtain ⟨y, hy, hyid⟩ := List.mem_map.mp h'
          exact hnot (Or.inl (List.mem_map.mpr ⟨y, hsubpre y hy, hyid⟩))
        · exact hnot (Or.inr h')
      · rw [hdrop] at hck
        cases hpre : pre2.drop k with
        | nil =>
          rw [hpre, List.nil_append] at hck
          injection hck with hc1 hc2
          right
          refine ⟨[], { c with qty := c.qty - d }, mid2, post2, ?_, ?_, ?_⟩
          · rw [← hc2]
            simp
          · show c.id = aid
            rw [← hc1]
            exact hA2
          · intro hmem
            obtain ⟨y, hy, hyid⟩ := List.mem_map.mp hmem
            rw [List.nil_append] at hy
            exact hnot (List.mem_map.mpr ⟨y, List.mem_append.mpr (Or.inr hy), hyid⟩)
        | cons c0 r0 =>
          rw [hpre, List.cons_append] at hck
          injection hck with hc1 hc2
          right
          refine ⟨{ c with qty := c.qty - d } :: r0, A2, mid2, post2, ?_, hA2, ?_⟩
          · rw [← hc2]
            simp
          · intro hmem
            obtain ⟨y, hy, hyid⟩ := List.mem_map.mp hmem
            have hy2 : y = { c with qty := c.qty - d } ∨ y ∈ r0 ∨ y ∈ mid2 ++ B :: post2 := by
              simp only [List.cons_append, List.mem_cons, List.mem_append] at hy ⊢
              tauto
            have hc0 : c0 ∈ pre2 := hsubpre c0 (by rw [hpre]; simp)
            rcases hy2 with rfl | hy2 | hy2
            · refine hnot (List.mem_map.mpr ⟨c0, List.mem_append.mpr (Or.inl hc0), ?_⟩)
              show c0.id = aid
              rw [hc1]
              exact hyid
            · have hy3 : y ∈ pre2 := hsubpre y (by rw [hpre]; simp [hy2])
              exact hnot (List.mem_map.mpr ⟨y, List.mem_append.mpr (Or.inl hy3), hyid⟩)
            · exact hnot (List.mem_map.mpr ⟨y, List.mem_append.mpr (Or.inr hy2), hyid⟩)
    · left
      have htail : ∀ y ∈ l.drop k, y ∈ mid2 ++ B :: post2 := by
        intro y hy
        rw [hl] at hy
        rw [List.drop_append_eq_append_drop] at hy
        rw [List.drop_eq_nil_iff.mpr (by omega)] at hy
        rw [List.nil_append] at hy
        obtain ⟨m, hm⟩ : ∃ m, k - pre2.length = m + 1 := ⟨k - pre2.length - 1, by omega⟩
        rw [hm, List.drop_succ_cons] at hy
        exact List.drop_subset _ _ hy
      have hids : ∀ y, y ∈ l'.map Order.id → y ∈ (l.drop k).map Order.id := by
        rcases hk with rfl | ⟨c, rest, d, hck, rfl⟩
        · exact fun y hy => hy
        · intro y hy
          rw [hck]
          simp only [List.map_cons, List.mem_cons] at hy ⊢
          rcases hy with hy | hy
          · exact Or.inl hy
          · exact Or.inr hy
      intro hmem
      obtain ⟨y, hy, hyid⟩ := List.mem_map.mp (hids aid hmem)
      have hmem2 := htail y hy
      exact hnot (List.mem_map.mpr ⟨y, List.mem_append.mpr (Or.inr hmem2), hyid⟩)

theorem matchIncoming_fst (s : Book) (o : Order) :
    (matchIncoming s o).1 = (matchIncomingFull s o).book := rfl

theorem addToBook_askLevels_of_buy (s : Book) (o : Order) (h : o.side = Side.buy) :
    (addToBook s o).2.askLevels = s.askLevels := by
  rw [addToBook]
  by_cases h1 : o.qty ≤ 0
  · rw [if_pos h1]
  · rw [if_neg h1]
    by_cases h2 : o.price < MIN_TICK ∨ MAX_TICK < o.price
    · rw [if_pos h2]
    · rw [if_neg h2]
      by_cases h3 : (s.index o.id).isSome
      · rw [if_pos h3]
      · rw [if_neg h3, h]

theorem addToBook_bidLevels_of_sell (s : Book) (o : Order) (h : o.side = Side.sell) :
    (addToBook s o).2.bidLevels = s.bidLevels := by
  rw [addToBook]
  by_cases h1 : o.qty ≤ 0
  · rw [if_pos h1]
  · rw [if_neg h1]
    by_cases h2 : o.price < MIN_TICK ∨ MAX_TICK < o.price
    · rw [if_pos h2]
    · rw [if_neg h2]
      by_cases h3 : (s.index o.id).isSome
      · rw [if_pos h3]
      · rw [if_neg h3, h]

theorem addToBook_bid_fifo_of_buy (s : Book) (o : Order) (h : o.side = Side.buy)
    (j : Int) :
    ((addToBook s o).2.bidLevels j).fifo = (s.bidLevels j).fifo ∨
    ((addToBook s o).2.bidLevels j).fifo = (s.bidLevels j).fifo ++ [o] := by
  rw [addToBook]
  by_cases h1 : o.qty ≤ 0
  · rw [if_pos h1]
    exact Or.inl rfl
  · rw [if_neg h1]
    by_cases h2 : o.price < MIN_TICK ∨ MAX_TICK < o.price
    · rw [if_pos h2]
      exact Or.inl rfl
    · rw [if_neg h2]
      by_cases h3 : (s.index o.id).isSome
      · rw [if_pos h3]
        exact Or.inl rfl
      · rw [if_neg h3, h]
        dsimp only
        rcases eq_or_ne j (toIndex o.price) with rfl | hj
        · rw [updLv_same]
          exact Or.inr rfl
        · rw [updLv_other _ _ _ _ hj]
          exact Or.inl rfl

theorem addToBook_ask_fifo_of_sell (s : Book) (o : Order) (h : o.side = Side.sell)
    (j : Int) :
    ((addToBook s o).2.askLevels j).fifo = (s.askLevels j).fifo ∨
    ((addToBook s o).2.askLevels j).fifo = (s.askLevels j).fifo ++ [o] := by
  rw [addToBook]
  by_cases h1 : o.qty ≤ 0
  · rw [if_pos h1]
    exact Or.inl rfl
  · rw [if_neg h1]
    by_cases h2 : o.price < MIN_TICK ∨ MAX_TICK < o.price
    · rw [if_pos h2]
      exact Or.inl rfl
    · rw [if_neg h2]
      by_cases h3 : (s.index o.id).isSome
      · rw [if_pos h3]
        exact Or.inl rfl
      · rw [if_neg h3, h]
        dsimp only
        rcases eq_or_ne j (toIndex o.price) with rfl | hj
        · rw [updLv_same]
          exact Or.inr rfl
        · rw [updLv_other _ _ _ _ hj]
          exact Or.inl rfl

/-- One submit changes a given level either by head-side consumption
(`SuffixRed`) or by appending the incoming order's remainder at the tail. -/
theorem matchIncoming_level (t : Book) (o : Order) (sd : Side) (j : Int) :
    SuffixRed (levelsOf t sd j).fifo (levelsOf (matchIncoming t o).1 sd j).fifo ∨
    ∃ x : Order, x.id = o.id ∧
      (levelsOf (matchIncoming t o).1 sd j).fifo = (levelsOf t sd j).fifo ++ [x] := by
  rw [matchIncoming_fst, matchIncomingFull]
  by_cases h1 : o.qty ≤ 0
  · rw [if_pos h1]
    exact Or.inl (SuffixRed.refl _)
  · rw [if_neg h1]
    by_cases h2 : o.price < MIN_TICK ∨ MAX_TICK < o.price
    · rw [if_pos h2]
      exact Or.inl (SuffixRed.refl _)
    · rw [if_neg h2]
      cases hside : o.side with
      | buy =>
        dsimp only
        set r := matchBuyLoop ((NUM_LEVELS - t.bestAskIdx).toNat + 1) t o with hr
        obtain ⟨hb1, hb2, hb3, hb4, hb5⟩ :=
          matchBuyLoop_basic ((NUM_LEVELS - t.bestAskIdx).toNat + 1) t o
        by_cases h3 : 0 < r.rem
        · rw [if_pos h3]
          dsimp only
          cases sd with
          | buy =>
            simp only [levelsOf]
            rcases addToBook_bid_fifo_of_buy r.book
                ({ id := o.id, side := Side.buy, price := o.price, qty := r.rem } : Order)
                rfl j with hadd | hadd
            · rw [hadd, hb1]
              exact Or.inl (SuffixRed.refl _)
            · rw [hadd, hb1]
              exact Or.inr
                ⟨{ id := o.id, side := Side.buy, price := o.price, qty := r.rem }, rfl, rfl⟩
          | sell =>
            simp only [levelsOf]
            rw [addToBook_askLevels_of_buy r.book
              ({ id := o.id, side := Side.buy, price := o.price, qty := r.rem } : Order) rfl]
            exact Or.inl (hb4 j)
        · rw [if_neg h3]
          cases sd with
          | buy =>
            simp only [levelsOf]
            rw [hb1]
            exact Or.inl (SuffixRed.refl _)
          | sell =>
            simp only [levelsOf]
            exact Or.inl (hb4 j)
      | sell =>
        dsimp only
        set r := matchSellLoop ((t.bestBidIdx + 1).toNat + 1) t o with hr
        obtain ⟨hb1, hb2, hb3, hb4, hb5⟩ :=
          matchSellLoop_basic ((t.bestBidIdx + 1).toNat + 1) t o
        by_cases h3 : 0 < r.rem
        · rw [if_pos h3]
          dsimp only
          cases sd with
          | sell =>
            simp only [levelsOf]
            rcases addToBook_ask_fifo_of_sell r.book
                ({ id := o.id, side := Side.sell, price := o.price, qty := r.rem } : Order)
                rfl j with hadd | hadd
            · rw [hadd, hb1]
              exact Or.inl (SuffixRed.refl _)
            · rw [hadd, hb1]
              exact Or.inr
                ⟨{ id := o.id, side := Side.sell, price := o.price, qty := r.rem }, rfl, rfl⟩
          | buy =>
            simp only [levelsOf]
            rw [addToBook_bidLevels_of_sell r.book
              ({ id := o.id, side := Side.sell, price := o.price, qty := r.rem } : Order) rfl]
            exact Or.inl (hb4 j)
        · rw [if_neg h3]
          cases sd with
          | sell =>
            simp only [levelsOf]
            rw [hb1]
            exact Or.inl (SuffixRed.refl _)
          | buy =>
            simp only [levelsOf]
            exact Or.inl (hb4 j)

theorem runOps_cons (s : Book) (o : Order) (ops : List Order) :
    runOps s (o :: ops) = runOps (matchIncoming s o).1 ops := rfl

theorem runOps_fifoInv (aid : Int) (B : Order) (ops : List Order) (s : Book)
    (sd : Side) (j : Int)
    (hops : ∀ op ∈ ops, op.id ≠ aid)
    (hinv : FifoInv aid B (levelsOf s sd j).fifo) :
    FifoInv aid B (levelsOf (runOps s ops) sd j).fifo := by
  induction ops generalizing s with
  | nil => exact hinv
  | cons o ops ih =>
    rw [runOps_cons]
    refine ih (matchIncoming s o).1 (fun op hop => hops op (by simp [hop])) ?_
    rcases matchIncoming_level s o sd j with h | ⟨x, hxid, heq⟩
    · exact fifoInv_suffixRed _ _ _ _ h hinv
    · rw [heq]
      refine fifoInv_append _ _ _ _ ?_ hinv
      rw [hxid]
      exact hops o (by simp)

/-! ### Helper facts for the claim theorems -/

theorem matchBuyLoop_rem_nonneg (f : Nat) (s : Book) (o : Order) (h : 0 ≤ o.qty) :
    0 ≤ (matchBuyLoop f s o).rem := by
  induction f generalizing s o with
  | zero =>
    rw [matchBuyLoop]
    exact h
  | succ f ih =>
    rw [matchBuyLoop]
    by_cases hc1 : 0 < o.qty ∧ s.bestAskIdx < NUM_LEVELS
    · rw [if_pos hc1]
      by_cases hc2 : toIndex o.price < s.bestAskIdx
      · rw [if_pos hc2]
        exact h
      · rw [if_neg hc2]
        dsimp only
        by_cases hc3 :
            (matchFifo o.id (fromIndex s.bestAskIdx) o.qty (s.askLevels s.bestAskIdx).fifo).fifo = []
        · rw [if_pos hc3]
          exact ih _ _ (matchFifo_rem_nonneg _ _ _ _ h)
        · rw [if_neg hc3]
          exact matchFifo_rem_nonneg _ _ _ _ h
    · rw [if_neg hc1]
      exact h

theorem matchSellLoop_rem_nonneg (f : Nat) (s : Book) (o : Order) (h : 0 ≤ o.qty) :
    0 ≤ (matchSellLoop f s o).rem := by
  induction f generalizing s o with
  | zero =>
    rw [matchSellLoop]
    exact h
  | succ f ih =>
    rw [matchSellLoop]
    by_cases hc1 : 0 < o.qty ∧ 0 ≤ s.bestBidIdx
    · rw [if_pos hc1]
      by_cases hc2 : s.bestBidIdx < toIndex o.price
      · rw [if_pos hc2]
        exact h
      · rw [if_neg hc2]
        dsimp only
        by_cases hc3 :
            (matchFifo o.id (fromIndex s.bestBidIdx) o.qty (s.bidLevels s.bestBidIdx).fifo).fifo = []
        · rw [if_pos hc3]
          exact ih _ _ (matchFifo_rem_nonneg _ _ _ _ h)
        · rw [if_neg hc3]
          exact matchFifo_rem_nonneg _ _ _ _ h
    · rw [if_neg hc1]
      exact h

theorem matchIncomingFull_rem_nonneg (s : Book) (o : Order) (h : 0 ≤ o.qty) :
    0 ≤ (matchIncomingFull s o).rem := by
  rw [matchIncomingFull]
  by_cases h1 : o.qty ≤ 0
  · rwa [if_pos h1]
  · rw [if_neg h1]
    by_cases h2 : o.price < MIN_TICK ∨ MAX_TICK < o.price
    · rwa [if_pos h2]
    · rw [if_neg h2]
      cases hside : o.side with
      | buy =>
        dsimp only
        by_cases h3 : 0 < (matchBuyLoop ((NUM_LEVELS - s.bestAskIdx).toNat + 1) s o).rem
        · rw [if_pos h3]
          dsimp only
          omega
        · rw [if_neg h3]
          exact matchBuyLoop_rem_nonneg _ _ _ h
      | sell =>
        dsimp only
        by_cases h3 : 0 < (matchSellLoop ((s.bestBidIdx + 1).toNat + 1) s o).rem
        · rw [if_pos h3]
          dsimp only
          omega
        · rw [if_neg h3]
          exact matchSellLoop_rem_nonneg _ _ _ h

theorem addToBook_success_index (s : Book) (o : Order) (h1 : 0 < o.qty)
    (h2 : MIN_TICK ≤ o.price) (h3 : o.price ≤ MAX_TICK) (h4 : s.index o.id = none) :
    (addToBook s o).2.index o.id = some ⟨o.side, o.price⟩ := by
  rw [addToBook, if_neg (by omega), if_neg (by omega), if_neg (by rw [h4]; simp)]
  cases o.side <;> exact setIndex_same _ _ _

/-- If a valid order with an unindexed id has remainder after crossing, that
remainder is rested: the id is indexed afterwards. -/
theorem matchIncomingFull_rested (s : Book) (o : Order) (hq : 0 < o.qty)
    (hp1 : MIN_TICK ≤ o.price) (hp2 : o.price ≤ MAX_TICK)
    (hid : s.index o.id = none)
    (hrem : 0 < (matchIncomingFull s o).rem) :
    ((matchIncomingFull s o).book.index o.id).isSome = true := by
  rw [matchIncomingFull] at hrem ⊢
  rw [if_neg (by omega), if_neg (by omega)] at hrem ⊢
  revert hrem
  cases hside : o.side with
  | buy =>
    dsimp only
    intro hrem
    set r := matchBuyLoop ((NUM_LEVELS - s.bestAskIdx).toNat + 1) s o with hr
    obtain ⟨hb1, hb2, hb3, hb4, hb5⟩ :=
      matchBuyLoop_basic ((NUM_LEVELS - s.bestAskIdx).toNat + 1) s o
    by_cases h3 : 0 < r.rem
    · rw [if_pos h3]
      dsimp only
      have hnone : r.book.index o.id = none := by
        rcases hb5 o.id with h | h
        · rw [← hr] at h
          rw [h, hid]
        · rw [← hr] at h
          rw [h]
      rw [addToBook_success_index r.book
        ({ id := o.id, side := Side.buy, price := o.price, qty := r.rem } : Order)
        h3 hp1 hp2 hnone]
      rfl
    · rw [if_neg h3] at hrem
      exact absurd hrem h3
  | sell =>
    dsimp only
    intro hrem
    set r := matchSellLoop ((s.bestBidIdx + 1).toNat + 1) s o with hr
    obtain ⟨hb1, hb2, hb3, hb4, hb5⟩ :=
      matchSellLoop_basic ((s.bestBidIdx + 1).toNat + 1) s o
    by_cases h3 : 0 < r.rem
    · rw [if_pos h3]
      dsimp only
      have hnone : r.book.index o.id = none := by
        rcases hb5 o.id with h | h
        · rw [← hr] at h
          rw [h, hid]
        · rw [← hr] at h
          rw [h]
      rw [addToBook_success_index r.book
        ({ id := o.id, side := Side.sell, price := o.price, qty := r.rem } : Order)
        h3 hp1 hp2 hnone]
      rfl
    · rw [if_neg h3] at hrem
      exact absurd hrem h3

theorem cancel_of_none (s : Book) (id : Int) (h : s.index id = none) :
    cancel s id = (false, s) := by
  rw [cancel, h]

theorem cancel_success (s : Book) (id : Int) (ref : OrderRef)
    (h : s.index id = some ref) :
    (cancel s id).1 = true ∧ (cancel s id).2.index id = none := by
  rw [cancel, h]
  dsimp only
  cases ref.side <;> exact ⟨rfl, eraseIndex_same _ _⟩

theorem matchIncoming_invalid (s : Book) (o : Order)
    (h : o.qty ≤ 0 ∨ o.price < MIN_TICK ∨ MAX_TICK < o.price) :
    matchIncoming s o = (s, []) := by
  have h1 : matchIncoming s o =
      ((matchIncomingFull s o).book, (matchIncomingFull s o).trades) := rfl
  rw [h1, matchIncomingFull]
  by_cases hq : o.qty ≤ 0
  · rw [if_pos hq]
  · rw [if_neg hq, if_pos (by tauto)]

/-! ### Concrete books used by the witnesses -/

/-- A book holding one resting ask, id 1, price 1000, qty 5. -/
def exBook1 : Book := (matchIncoming emptyBook ⟨1, Side.sell, 1000, 5⟩).1

/-- The book `exBook1` plus one resting bid, id 2, price 995, qty 3. -/
def exBook2 : Book := (matchIncoming exBook1 ⟨2, Side.buy, 995, 3⟩).1

theorem exBook1_reachable : Reachable exBook1 :=
  Reachable.submit emptyBook ⟨1, Side.sell, 1000, 5⟩ Reachable.init

theorem exBook2_reachable : Reachable exBook2 :=
  Reachable.submit exBook1 ⟨2, Side.buy, 995, 3⟩ exBook1_reachable

/-- A book with a resting ask id 9 at 1000 (qty 5) and a resting bid id 7 at
990 (qty 5). -/
def c1Book : Book :=
  (matchIncoming (matchIncoming emptyBook ⟨9, Side.sell, 1000, 5⟩).1
    ⟨7, Side.buy, 990, 5⟩).1

/-- A book with two resting bids at price 1000: id 1 (qty 3) ahead of id 2
(qty 3). -/
def c4Book : Book :=
  (matchIncoming (matchIncoming emptyBook ⟨1, Side.buy, 1000, 3⟩).1
    ⟨2, Side.buy, 1000, 3⟩).1

/-! ### Claim theorems -/

/-- C5: in every state reachable from the empty book by submit, cancel and
replace, the book is never crossed: every resting bid's price is strictly
below every resting ask's price. -/
theorem c5_book_never_crossed (s : Book) (h : Reachable s) :
    ∀ (j k : Int) (o o' : Order), o ∈ (s.bidLevels j).fifo →
      o' ∈ (s.askLevels k).fifo → o.price < o'.price := by
  have hv := reachable_valid s h
  intro j k o o' hb ha
  have hjb : j ≤ s.bestBidIdx := by
    by_contra hc
    rw [hv.bidAbove j (by omega)] at hb
    exact absurd hb (List.not_mem_nil o)
  have hka : s.bestAskIdx ≤ k := by
    by_contra hc
    rw [hv.askBelow k (by omega)] at ha
    exact absurd ha (List.not_mem_nil o')
  have h1 := (hv.stampBid j o hb).2
  have h2 := (hv.stampAsk k o' ha).2
  have h3 := hv.uncrossed
  rw [h1, h2]
  simp only [fromIndex]
  omega

theorem c5_book_never_crossed_witness :
    (⟨2, Side.buy, 995, 3⟩ : Order) ∈ (exBook2.bidLevels 95).fifo ∧
    (⟨1, Side.sell, 1000, 5⟩ : Order) ∈ (exBook2.askLevels 100).fifo ∧
    (995 : Int) < 1000 :=
  ⟨by decide, by decide,
    c5_book_never_crossed exBook2 exBook2_reachable 95 100
      ⟨2, Side.buy, 995, 3⟩ ⟨1, Side.sell, 1000, 5⟩ (by decide) (by decide)⟩

/-- C6: after every operation from any reachable state, for each side and each
price-level index the level's `totalQuantity` is non-negative and equals the
sum of the remaining quantities of the orders in the level's FIFO. -/
theorem c6_level_totals (s : Book) (h : Reachable s) (j : Int) :
    ((s.bidLevels j).totalQuantity = sumQty (s.bidLevels j).fifo ∧
      0 ≤ (s.bidLevels j).totalQuantity) ∧
    ((s.askLevels j).totalQuantity = sumQty (s.askLevels j).fifo ∧
      0 ≤ (s.askLevels j).totalQuantity) := by
  have hv := reachable_valid s h
  refine ⟨⟨hv.sumBid j, ?_⟩, hv.sumAsk j, ?_⟩
  · rw [hv.sumBid j]
    exact sumQty_nonneg _ (hv.posBid j)
  · rw [hv.sumAsk j]
    exact sumQty_nonneg _ (hv.posAsk j)

theorem c6_level_totals_witness :
    ((exBook2.bidLevels 95).totalQuantity = sumQty (exBook2.bidLevels 95).fifo ∧
      0 ≤ (exBook2.bidLevels 95).totalQuantity) ∧
    ((exBook2.askLevels 95).totalQuantity = sumQty (exBook2.askLevels 95).fifo ∧
      0 ≤ (exBook2.askLevels 95).totalQuantity) :=
  c6_level_totals exBook2 exBook2_reachable 95

/-- C7: after every operation from any reachable state, `bestBidIdx` is `-1`
when every bid level is empty and otherwise the largest index of a non-empty
bid level; `bestAskIdx` is `NUM_LEVELS` when every ask level is empty and
otherwise the smallest index of a non-empty ask level. -/
theorem c7_best_cursors_exact (s : Book) (h : Reachable s) :
    ((s.bestBidIdx = -1 ∧ ∀ j, 0 ≤ j → (s.bidLevels j).fifo = []) ∨
      ((s.bidLevels s.bestBidIdx).fifo ≠ [] ∧
        ∀ j, s.bestBidIdx < j → (s.bidLevels j).fifo = [])) ∧
    ((s.bestAskIdx = NUM_LEVELS ∧ ∀ j, j < NUM_LEVELS → (s.askLevels j).fifo = []) ∨
      ((s.askLevels s.bestAskIdx).fifo ≠ [] ∧
        ∀ j, j < s.bestAskIdx → (s.askLevels j).fifo = [])) := by
  have hv := reachable_valid s h
  constructor
  · rcases le_or_lt 0 s.bestBidIdx with hb | hb
    · exact Or.inr ⟨hv.bidBest hb, hv.bidAbove⟩
    · left
      have hbl := hv.bidLo
      exact ⟨by omega, fun j hj => hv.bidAbove j (by omega)⟩
  · rcases lt_or_le s.bestAskIdx NUM_LEVELS with ha | ha
    · exact Or.inr ⟨hv.askBest ha, hv.askBelow⟩
    · left
      have hah := hv.askHi
      have heq : s.bestAskIdx = NUM_LEVELS := by omega
      exact ⟨heq, fun j hj => by rw [← heq] at hj; exact hv.askBelow j hj⟩

theorem c7_best_cursors_exact_witness :
    ((exBook2.bestBidIdx = -1 ∧ ∀ j, 0 ≤ j → (exBook2.bidLevels j).fifo = []) ∨
      ((exBook2.bidLevels exBook2.bestBidIdx).fifo ≠ [] ∧
        ∀ j, exBook2.bestBidIdx < j → (exBook2.bidLevels j).fifo = [])) ∧
    ((exBook2.bestAskIdx = NUM_LEVELS ∧
        ∀ j, j < NUM_LEVELS → (exBook2.askLevels j).fifo = []) ∨
      ((exBook2.askLevels exBook2.bestAskIdx).fifo ≠ [] ∧
        ∀ j, j < exBook2.bestAskIdx → (exBook2.askLevels j).fifo = [])) :=
  c7_best_cursors_exact exBook2 exBook2_reachable

/-- C8: for every id, cancelling twice in succession returns `true` then
`false` when the id was resting and `false` twice when it was not; the book
after the second call is the book after the single successful cancel, and a
cancel that returns `false` mutates nothing. -/
theorem c8_cancel_idempotent_boundary (s : Book) (id : Int) :
    ((s.index id).isSome = true →
      (cancel s id).1 = true ∧
      (cancel (cancel s id).2 id).1 = false ∧
      (cancel (cancel s id).2 id).2 = (cancel s id).2) ∧
    (s.index id = none →
      cancel s id = (false, s) ∧ cancel (cancel s id).2 id = (false, s)) := by
  constructor
  · intro hsome
    obtain ⟨ref, href⟩ := Option.isSome_iff_exists.mp hsome
    obtain ⟨h1, h2⟩ := cancel_success s id ref href
    have h3 := cancel_of_none (cancel s id).2 id h2
    exact ⟨h1, by rw [h3], by rw [h3]⟩
  · intro hnone
    have h1 := cancel_of_none s id hnone
    refine ⟨h1, ?_⟩
    rw [h1]
    exact h1

theorem c8_cancel_idempotent_boundary_witness :
    (exBook1.index 1).isSome = true ∧
    ((cancel exBook1 1).1 = true ∧
      (cancel (cancel exBook1 1).2 1).1 = false ∧
      (cancel (cancel exBook1 1).2 1).2 = (cancel exBook1 1).2) ∧
    exBook1.index 99 = none ∧
    (cancel exBook1 99 = (false, exBook1) ∧
      cancel (cancel exBook1 99).2 99 = (false, exBook1)) :=
  ⟨by decide, (c8_cancel_idempotent_boundary exBook1 1).1 (by decide),
    by decide, (c8_cancel_idempotent_boundary exBook1 99).2 (by decide)⟩

/-- C3: for every resting id, `replace(id, p, q)` produces exactly the book
and trade stream of `cancel(id)` followed immediately by a submit of
`{id, same side as the old order, p, q}`; for a non-resting id it reports
failure and performs no submit and no mutation. -/
theorem c3_replace_is_cancel_then_submit (s : Book) (id p q : Int) :
    (∀ ref, s.index id = some ref →
      replace s id p q = (true, matchIncoming (cancel s id).2 ⟨id, ref.side, p, q⟩)) ∧
    (s.index id = none → replace s id p q = (false, s, [])) := by
  constructor
  · intro ref href
    rw [replace, href]
    dsimp only
    rw [if_pos (cancel_success s id ref href).1]
  · intro hnone
    rw [replace, hnone]

theorem c3_replace_is_cancel_then_submit_witness :
    exBook1.index 1 = some ⟨Side.sell, 1000⟩ ∧
    replace exBook1 1 1005 2 =
      (true, matchIncoming (cancel exBook1 1).2 ⟨1, Side.sell, 1005, 2⟩) ∧
    exBook1.index 99 = none ∧
    replace exBook1 99 1000 1 = (false, exBook1, []) :=
  ⟨by decide,
    (c3_replace_is_cancel_then_submit exBook1 1 1005 2).1 ⟨Side.sell, 1000⟩ (by decide),
    by decide,
    (c3_replace_is_cancel_then_submit exBook1 99 1000 1).2 (by decide)⟩

/-- C9: a replace of a resting id with non-positive quantity or an
out-of-band price reports success, removes the old order (the state is exactly
the state after a successful cancel), emits no trade and rests nothing, rather
than rejecting without mutation. -/
theorem c9_replace_invalid_acts_as_cancel (s : Book) (id p q : Int)
    (ref : OrderRef) (hix : s.index id = some ref)
    (hbad : q ≤ 0 ∨ p < MIN_TICK ∨ MAX_TICK < p) :
    replace s id p q = (true, (cancel s id).2, []) ∧
    (cancel s id).1 = true ∧
    (cancel s id).2.index id = none := by
  obtain ⟨h1, h2⟩ := cancel_success s id ref hix
  refine ⟨?_, h1, h2⟩
  rw [replace, hix]
  dsimp only
  rw [if_pos h1, matchIncoming_invalid (cancel s id).2 ⟨id, ref.side, p, q⟩ hbad]

theorem c9_replace_invalid_acts_as_cancel_witness :
    exBook1.index 1 = some ⟨Side.sell, 1000⟩ ∧
    ((0 : Int) ≤ 0 ∨ (1000 : Int) < MIN_TICK ∨ MAX_TICK < (1000 : Int)) ∧
    (replace exBook1 1 1000 0 = (true, (cancel exBook1 1).2, []) ∧
      (cancel exBook1 1).1 = true ∧
      (cancel exBook1 1).2.index 1 = none) :=
  ⟨by decide, by decide,
    c9_replace_invalid_acts_as_cancel exBook1 1 1000 0 ⟨Side.sell, 1000⟩
      (by decide) (by decide)⟩

/-- C10: submit refuses an id only while that id is resting: a valid order
whose id is not currently indexed is never dropped — it either fully matches
(no remainder) or its remainder rests and the id is indexed again. In
particular an id freed by cancel or by a full maker fill can be reused. -/
theorem c10_submit_rejects_only_resting (s : Book) (o : Order)
    (hq : 0 < o.qty) (hp1 : MIN_TICK ≤ o.price) (hp2 : o.price ≤ MAX_TICK)
    (hid : s.index o.id = none) :
    (matchIncomingFull s o).rem = 0 ∨
    ((matchIncomingFull s o).book.index o.id).isSome = true := by
  by_cases h : 0 < (matchIncomingFull s o).rem
  · exact Or.inr (matchIncomingFull_rested s o hq hp1 hp2 hid h)
  · left
    have := matchIncomingFull_rem_nonneg s o (by omega)
    omega

theorem c10_submit_rejects_only_resting_witness :
    (0 : Int) < 2 ∧ MIN_TICK ≤ (995 : Int) ∧ (995 : Int) ≤ MAX_TICK ∧
    (cancel exBook1 1).2.index 1 = none ∧
    ((matchIncomingFull (cancel exBook1 1).2 ⟨1, Side.buy, 995, 2⟩).rem = 0 ∨
      ((matchIncomingFull (cancel exBook1 1).2 ⟨1, Side.buy, 995, 2⟩).book.index 1).isSome
        = true) :=
  ⟨by decide, by decide, by decide, by decide,
    c10_submit_rejects_only_resting (cancel exBook1 1).2 ⟨1, Side.buy, 995, 2⟩
      (by decide) (by decide) (by decide) (by decide)⟩

/-- C1 counterexample: in a book where id 7 rests as a bid at 990 and id 9
rests as an ask at 1000, submitting a crossing order with the resting id 7
emits a trade and mutates the book, so the claim that a duplicate-id submit is
rejected with no side effects is false on the code. -/
theorem c1_counterexample :
    (c1Book.index 7).isSome = true ∧
    (matchIncoming c1Book ⟨7, Side.buy, 1000, 3⟩).2 ≠ [] ∧
    ((matchIncoming c1Book ⟨7, Side.buy, 1000, 3⟩).1.askLevels 100).totalQuantity ≠
      (c1Book.askLevels 100).totalQuantity :=
  ⟨by decide, by decide, by decide⟩

/-- C1 (amended): a submit whose id is currently resting is not screened out
up front; only the resting step checks for duplicates. Hence when such an
order does not cross the opposite best level, the operation has no side
effects — no trade is emitted and the book is unchanged, the order being
silently dropped instead of rested — while a crossing duplicate-id submit does
trade (see the counterexample). -/
theorem c1_duplicate_noncrossing_noop (s : Book) (o : Order)
    (hdup : (s.index o.id).isSome = true)
    (hq : 0 < o.qty) (hp1 : MIN_TICK ≤ o.price) (hp2 : o.price ≤ MAX_TICK)
    (hnc : (o.side = Side.buy → toIndex o.price < s.bestAskIdx) ∧
           (o.side = Side.sell → s.bestBidIdx < toIndex o.price)) :
    matchIncoming s o = (s, []) := by
  have h1 : matchIncoming s o =
      ((matchIncomingFull s o).book, (matchIncomingFull s o).trades) := rfl
  rw [h1, matchIncomingFull]
  rw [if_neg (by omega), if_neg (by omega)]
  cases hside : o.side with
  | buy =>
    dsimp only
    have hloop : matchBuyLoop ((NUM_LEVELS - s.bestAskIdx).toNat + 1) s o =
        ⟨s, o.qty, []⟩ := by
      rw [matchBuyLoop]
      by_cases hc1 : 0 < o.qty ∧ s.bestAskIdx < NUM_LEVELS
      · rw [if_pos hc1, if_pos (hnc.1 hside)]
      · rw [if_neg hc1]
    rw [hloop]
    dsimp only
    rw [if_pos hq]
    dsimp only
    rw [addToBook, if_neg (by dsimp only; omega), if_neg (by dsimp only; omega),
      if_pos hdup]
  | sell =>
    dsimp only
    have hloop : matchSellLoop ((s.bestBidIdx + 1).toNat + 1) s o =
        ⟨s, o.qty, []⟩ := by
      rw [matchSellLoop]
      by_cases hc1 : 0 < o.qty ∧ 0 ≤ s.bestBidIdx
      · rw [if_pos hc1, if_pos (hnc.2 hside)]
      · rw [if_neg hc1]
    rw [hloop]
    dsimp only
    rw [if_pos hq]
    dsimp only
    rw [addToBook, if_neg (by dsimp only; omega), if_neg (by dsimp only; omega),
      if_pos hdup]

theorem c1_duplicate_noncrossing_noop_witness :
    (c1Book.index 7).isSome = true ∧ (0 : Int) < 3 ∧
    MIN_TICK ≤ (992 : Int) ∧ (992 : Int) ≤ MAX_TICK ∧
    matchIncoming c1Book ⟨7, Side.buy, 992, 3⟩ = (c1Book, []) :=
  ⟨by decide, by decide, by decide, by decide,
    c1_duplicate_noncrossing_noop c1Book ⟨7, Side.buy, 992, 3⟩
      (by decide) (by decide) (by decide) (by decide)
      ⟨fun _ => by decide, fun hc => Side.noConfusion hc⟩⟩

/-- C4: strict FIFO within a price level. If order `A` sits ahead of order `B`
at the same level, then across any sequence of submitted incoming orders
(with ids distinct from A's), as long as A's id is still present in the level,
`B` is the untouched original record (same quantity) strictly behind it; so no
quantity of `B` fills before `A` is consumed to zero. -/
theorem c4_fifo_priority (s : Book) (sd : Side) (j : Int) (ops : List Order)
    (pre mid post : List Order) (A B : Order)
    (hlv : (levelsOf s sd j).fifo = pre ++ A :: (mid ++ B :: post))
    (honce : A.id ∉ (pre ++ (mid ++ B :: post)).map Order.id)
    (hops : ∀ op ∈ ops, op.id ≠ A.id)
    (hA : A.id ∈ (levelsOf (runOps s ops) sd j).fifo.map Order.id) :
    ∃ pre2 A2 mid2 post2,
      (levelsOf (runOps s ops) sd j).fifo = pre2 ++ A2 :: (mid2 ++ B :: post2) ∧
      A2.id = A.id := by
  have hinv : FifoInv A.id B (levelsOf s sd j).fifo :=
    Or.inr ⟨pre, A, mid, post, hlv, rfl, honce⟩
  have hfin := runOps_fifoInv A.id B ops s sd j hops hinv
  rcases hfin with h | ⟨pre2, A2, mid2, post2, heq, hA2, _⟩
  · exact absurd hA h
  · exact ⟨pre2, A2, mid2, post2, heq, hA2⟩

theorem c4_fifo_priority_witness :
    (levelsOf c4Book Side.buy 100).fifo =
      [] ++ (⟨1, Side.buy, 1000, 3⟩ : Order) ::
        ([] ++ (⟨2, Side.buy, 1000, 3⟩ : Order) :: []) ∧
    (1 : Int) ∉ (([] ++ ([] ++ [(⟨2, Side.buy, 1000, 3⟩ : Order)])).map Order.id) ∧
    (∀ op ∈ [(⟨5, Side.sell, 1000, 2⟩ : Order)], op.id ≠ (1 : Int)) ∧
    (1 : Int) ∈
      (levelsOf (runOps c4Book [⟨5, Side.sell, 1000, 2⟩]) Side.buy 100).fifo.map Order.id ∧
    (∃ pre2 A2 mid2 post2,
      (levelsOf (runOps c4Book [⟨5, Side.sell, 1000, 2⟩]) Side.buy 100).fifo =
        pre2 ++ A2 :: (mid2 ++ (⟨2, Side.buy, 1000, 3⟩ : Order) :: post2) ∧
      A2.id = (1 : Int)) :=
  ⟨by decide, by decide, by decide, by decide,
    c4_fifo_priority c4Book Side.buy 100 [⟨5, Side.sell, 1000, 2⟩] [] [] []
      ⟨1, Side.buy, 1000, 3⟩ ⟨2, Side.buy, 1000, 3⟩
      (by decide) (by decide) (by decide) (by decide)⟩

/-- C2: the `AddResult` of `submit` distinguishes the outcome of every call:
`Rejected` exactly on invalid input (with no mutation and no trades), and on
valid input `FullyMatched` iff no remainder is left, `FullyRested` iff no
fills occurred and the remainder rested, `PartiallyRested` iff some fills
occurred and the remainder rested (the id being indexed again whenever a
remainder exists). The result type is modelled from the spec; the matching is
the source-faithful `matchIncomingFull`. -/
theorem c2_submit_addresult_classifies (s : Book) (o : Order) :
    ((o.qty ≤ 0 ∨ o.price < MIN_TICK ∨ MAX_TICK < o.price ∨
        (s.index o.id).isSome = true) →
      submit s o = (AddResult.Rejected, s, [])) ∧
    (¬(o.qty ≤ 0 ∨ o.price < MIN_TICK ∨ MAX_TICK < o.price ∨
        (s.index o.id).isSome = true) →
      (submit s o).2.1 = (matchIncomingFull s o).book ∧
      (submit s o).2.2 = (matchIncomingFull s o).trades ∧
      ((submit s o).1 = AddResult.FullyMatched ↔ (matchIncomingFull s o).rem = 0) ∧
      ((submit s o).1 = AddResult.FullyRested ↔
        (matchIncomingFull s o).trades = [] ∧ 0 < (matchIncomingFull s o).rem) ∧
      ((submit s o).1 = AddResult.PartiallyRested ↔
        (matchIncomingFull s o).trades ≠ [] ∧ 0 < (matchIncomingFull s o).rem) ∧
      (0 < (matchIncomingFull s o).rem →
        ((submit s o).2.1.index o.id).isSome = true)) := by
  constructor
  · intro h
    rw [submit, if_pos h]
  · intro h
    have hq : ¬ o.qty ≤ 0 := fun hc => h (Or.inl hc)
    have hp1 : ¬ o.price < MIN_TICK := fun hc => h (Or.inr (Or.inl hc))
    have hp2 : ¬ MAX_TICK < o.price := fun hc => h (Or.inr (Or.inr (Or.inl hc)))
    have hix : ¬ (s.index o.id).isSome = true :=
      fun hc => h (Or.inr (Or.inr (Or.inr hc)))
    have hixn : s.index o.id = none := by
      cases hx : s.index o.id with
      | none => rfl
      | some ref => exact absurd (by rw [hx]; rfl) hix
    rw [submit, if_neg h]
    dsimp only
    have hnn : 0 ≤ (matchIncomingFull s o).rem :=
      matchIncomingFull_rem_nonneg s o (by omega)
    by_cases h0 : (matchIncomingFull s o).rem = 0
    · rw [if_pos h0]
      refine ⟨rfl, rfl, ⟨fun _ => h0, fun _ => rfl⟩,
        ⟨fun hc => AddResult.noConfusion hc, fun hc => absurd hc.2 (by omega)⟩,
        ⟨fun hc => AddResult.noConfusion hc, fun hc => absurd hc.2 (by omega)⟩, ?_⟩
      intro hr
      exact absurd hr (by omega)
    · rw [if_neg h0]
      have hpos : 0 < (matchIncomingFull s o).rem := by omega
      by_cases ht : (matchIncomingFull s o).trades = []
      · rw [if_pos ht]
        refine ⟨rfl, rfl,
          ⟨fun hc => AddResult.noConfusion hc, fun hc => absurd hc h0⟩,
          ⟨fun _ => ⟨ht, hpos⟩, fun _ => rfl⟩,
          ⟨fun hc => AddResult.noConfusion hc, fun hc => absurd ht hc.1⟩, ?_⟩
        intro hr
        dsimp only
        exact matchIncomingFull_rested s o (by omega) (by omega) (by omega) hixn hr
      · rw [if_neg ht]
        refine ⟨rfl, rfl,
          ⟨fun hc => AddResult.noConfusion hc, fun hc => absurd hc h0⟩,
          ⟨fun hc => AddResult.noConfusion hc, fun hc => absurd hc.1 ht⟩,
          ⟨fun _ => ⟨ht, hpos⟩, fun _ => rfl⟩, ?_⟩
        intro hr
        dsimp only
        exact matchIncomingFull_rested s o (by omega) (by omega) (by omega) hixn hr

theorem c2_submit_addresult_classifies_witness :
    ¬((⟨3, Side.buy, 1005, 5⟩ : Order).qty ≤ 0 ∨
        (⟨3, Side.buy, 1005, 5⟩ : Order).price < MIN_TICK ∨
        MAX_TICK < (⟨3, Side.buy, 1005, 5⟩ : Order).price ∨
        (exBook1.index (⟨3, Side.buy, 1005, 5⟩ : Order).id).isSome = true) ∧
    ((submit exBook1 ⟨3, Side.buy, 1005, 5⟩).2.1 =
        (matchIncomingFull exBook1 ⟨3, Side.buy, 1005, 5⟩).book ∧
      (submit exBook1 ⟨3, Side.buy, 1005, 5⟩).2.2 =
        (matchIncomingFull exBook1 ⟨3, Side.buy, 1005, 5⟩).trades ∧
      ((submit exBook1 ⟨3, Side.buy, 1005, 5⟩).1 = AddResult.FullyMatched ↔
        (matchIncomingFull exBook1 ⟨3, Side.buy, 1005, 5⟩).rem = 0) ∧
      ((submit exBook1 ⟨3, Side.buy, 1005, 5⟩).1 = AddResult.FullyRested ↔
        (matchIncomingFull exBook1 ⟨3, Side.buy, 1005, 5⟩).trades = [] ∧
          0 < (matchIncomingFull exBook1 ⟨3, Side.buy, 1005, 5⟩).rem) ∧
      ((submit exBook1 ⟨3, Side.buy, 1005, 5⟩).1 = AddResult.PartiallyRested ↔
        (matchIncomingFull exBook1 ⟨3, Side.buy, 1005, 5⟩).trades ≠ [] ∧
          0 < (matchIncomingFull exBook1 ⟨3, Side.buy, 1005, 5⟩).rem) ∧
      (0 < (matchIncomingFull exBook1 ⟨3, Side.buy, 1005, 5⟩).rem →
        ((submit exBook1 ⟨3, Side.buy, 1005, 5⟩).2.1.index
            (⟨3, Side.buy, 1005, 5⟩ : Order).id).isSome = true)) :=
  ⟨by decide,
    (c2_submit_addresult_classifies exBook1 ⟨3, Side.buy, 1005, 5⟩).2 (by decide)⟩

end OrderBookPool
